import Mathlib

/-!
Verification development for the IPPREFIX custom type of the velox
repository (facebook::velox).

The embedding models, at the value level:

* `IPPrefixCastOperator::castFromString` / `castToString`
  (velox/functions/prestosql/types/IPPrefixType.cpp), including the parts
  of folly (`IPAddress::tryCreateNetwork`, `IPAddress::tryFromString`,
  `IPAddressV4/V6` parsing, formatting and masking) that those functions
  call.  folly's string parsing and formatting follow glibc
  `inet_pton` / `inet_ntop` semantics, which are modelled here faithfully
  for the reachable inputs (bracketed literals and scope ids, which no
  claim and no formatter output involves, are omitted).
* the IP scalar functions of IPAddressFunctions.h (`isIPV4`,
  `IPPrefixFunction::call`, `getIPSubnetMax`, `IPSubnetMinFunction`,
  `IPSubnetOfFunction`).
* the batch structure of the cast (null-initialized output columns,
  per-row status, the rowIndex counter) and the castTo/castFrom dispatch.

A 128-bit address value is a `Nat` below `2 ^ 128`, equal to the numeric
(big-endian) value of the 16 address bytes; a prefix length is a `Nat`.
Strings are `List Char`; error statuses carry their message as
`List Char`.
-/

deriving instance DecidableEq for Except

namespace VeloxIP

/-! ## Characters and digit strings -/

/-- The decimal and lowercase-hex digit characters, as emitted by
`inet_ntop` and by fmt's decimal formatting. -/
def digitChar : Nat → Char
  | 0 => '0'
  | 1 => '1'
  | 2 => '2'
  | 3 => '3'
  | 4 => '4'
  | 5 => '5'
  | 6 => '6'
  | 7 => '7'
  | 8 => '8'
  | 9 => '9'
  | 10 => 'a'
  | 11 => 'b'
  | 12 => 'c'
  | 13 => 'd'
  | 14 => 'e'
  | _ => 'f'

/-- Digits of `n` in base `b`, most significant first, `"0"` for zero:
the output shape shared by `%x` (base 16) and decimal formatting
(base 10). -/
def baseChars (b n : Nat) : List Char :=
  if n = 0 then ['0'] else ((Nat.digits b n).map digitChar).reverse

/-- Decimal representation, no leading zeros. -/
def decChars (n : Nat) : List Char := baseChars 10 n

/-- Lowercase hexadecimal representation, no leading zeros. -/
def hexChars (n : Nat) : List Char := baseChars 16 n

/-- Is `c` a decimal digit. -/
def isDecDigit (c : Char) : Bool := 48 ≤ c.toNat && c.toNat ≤ 57

/-- Is `c` a hexadecimal digit (both cases, as `inet_pton` accepts). -/
def isHexDigit (c : Char) : Bool :=
  (48 ≤ c.toNat && c.toNat ≤ 57) || (97 ≤ c.toNat && c.toNat ≤ 102)
    || (65 ≤ c.toNat && c.toNat ≤ 70)

/-- Value of a decimal digit character. -/
def decVal (c : Char) : Nat := c.toNat - 48

/-- Value of a hexadecimal digit character. -/
def hexVal (c : Char) : Nat :=
  if 48 ≤ c.toNat && c.toNat ≤ 57 then c.toNat - 48
  else if 97 ≤ c.toNat && c.toNat ≤ 102 then c.toNat - 87
  else c.toNat - 55

/-- Accumulated value of a decimal digit string (most significant first). -/
def decValue (l : List Char) : Nat := l.foldl (fun a c => a * 10 + decVal c) 0

/-- Accumulated value of a hexadecimal digit string. -/
def hexValue (l : List Char) : Nat := l.foldl (fun a c => a * 16 + hexVal c) 0

/-- Parse a nonempty all-decimal string as a number.  This and the bound
checks below model folly's string-to-integer conversion (`tryTo`): no
sign, no whitespace, overflow rejected; rejecting a final value above the
bound is equivalent to folly's running overflow check because the
accumulator is monotone. -/
def parseDecAll (l : List Char) : Option Nat :=
  if l ≠ [] ∧ l.all isDecDigit then some (decValue l) else none

/-- Model of folly `tryTo<uint8_t>` on a StringPiece. -/
def parseUInt8 (l : List Char) : Option Nat :=
  match parseDecAll l with
  | some v => if v ≤ 255 then some v else none
  | none => none

/-- Parse one 16-bit group of an IPv6 literal: nonempty hex digits with
value at most 0xffff (glibc `inet_pton6` rejects a group whose running
value exceeds 0xffff, equivalent on a full group to this final check). -/
def parseHex (l : List Char) : Option Nat :=
  if l ≠ [] ∧ l.all isHexDigit then
    if hexValue l ≤ 65535 then some (hexValue l) else none
  else none

/-! ## Splitting and joining on a separator character

`splitOnChar` models `folly::split` (used by `splitIpSlashCidr` and by
folly's network parsing): every occurrence of the separator splits, empty
pieces are kept. -/

def splitOnChar (c : Char) : List Char → List (List Char)
  | [] => [[]]
  | x :: xs =>
    if x = c then [] :: splitOnChar c xs
    else
      match splitOnChar c xs with
      | t :: ts => (x :: t) :: ts
      | [] => [[x]]

/-- Join token lists with a separating character (inverse of
`splitOnChar` on separator-free tokens). -/
def joinWith (c : Char) : List (List Char) → List Char
  | [] => []
  | [t] => t
  | t :: ts => t ++ c :: joinWith c ts

/-! ## IPv4 dotted-decimal literals (glibc `inet_pton`/`inet_ntop` AF_INET) -/

/-- Dotted-decimal form of a 32-bit value, as `inet_ntop4` prints it. -/
def v4Chars (v : Nat) : List Char :=
  decChars (v / 2 ^ 24 % 256) ++ '.' :: decChars (v / 2 ^ 16 % 256)
    ++ '.' :: decChars (v / 2 ^ 8 % 256) ++ '.' :: decChars (v % 256)

/-- One octet per glibc `inet_pton4`: nonempty decimal digits, no
leading zero unless the octet is exactly "0", value at most 255. -/
def parseOctet (t : List Char) : Option Nat :=
  if t ≠ [] ∧ t.all isDecDigit ∧ (t.length = 1 ∨ t.headD ' ' ≠ '0') then
    if decValue t ≤ 255 then some (decValue t) else none
  else none

/-- glibc `inet_pton4`: exactly four octets separated by dots. -/
def parseV4 (s : List Char) : Option Nat :=
  match splitOnChar '.' s with
  | [a, b, c, d] =>
    match parseOctet a, parseOctet b, parseOctet c, parseOctet d with
    | some x, some y, some z, some w =>
        some (x * 2 ^ 24 + y * 2 ^ 16 + z * 2 ^ 8 + w)
    | _, _, _, _ => none
  | _ => none

/-! ## 128-bit values as eight 16-bit words -/

/-- The eight 16-bit groups of a 128-bit address value, most significant
first (the network byte order of the stored address bytes). -/
def wordsOf (ip : Nat) : List Nat :=
  [ip / 2 ^ 112 % 65536, ip / 2 ^ 96 % 65536, ip / 2 ^ 80 % 65536,
   ip / 2 ^ 64 % 65536, ip / 2 ^ 48 % 65536, ip / 2 ^ 32 % 65536,
   ip / 2 ^ 16 % 65536, ip % 65536]

/-- Numeric value of a big-endian list of 16-bit groups. -/
def valOfWords (ws : List Nat) : Nat := ws.foldl (fun a w => a * 65536 + w) 0

/-! ## glibc `inet_ntop6`: best zero run and formatting -/

/-- Length of the run of zero words starting at index `i`. -/
def runLen (ws : List Nat) (i : Nat) : Nat :=
  ((ws.drop i).takeWhile (fun w => w == 0)).length

/-- The longest (leftmost on ties) run of zero words, when its length is
at least 2: glibc `inet_ntop6`'s `best` after the fixup `best.len < 2 →
no best`.  Returns the run's start index. -/
def bestBase (ws : List Nat) : Option Nat :=
  let m := ((List.range ws.length).map (runLen ws)).foldr max 0
  if 2 ≤ m then (List.range ws.length).find? (fun i => runLen ws i == m)
  else none

/-- The best zero run as (base, length). -/
def bestRun (ws : List Nat) : Option (Nat × Nat) :=
  (bestBase ws).map (fun b => (b, runLen ws b))

/-- glibc `inet_ntop6` (as called through `folly::IPAddressV6::str()`):
groups in lowercase hex joined by ':', the best zero run of length ≥ 2
collapsed to "::", and the embedded-IPv4 special case (run of words 0..5,
or run of words 0..4 with word 5 = 0xffff) printed as a trailing
dotted-decimal quad.  glibc's `best.len == 7` disjunct of that condition
is unreachable (index 6 then lies inside the run) and therefore absent
here. -/
def format6 (ip : Nat) : List Char :=
  let ws := wordsOf ip
  match bestRun ws with
  | none => joinWith ':' (ws.map hexChars)
  | some (b, l) =>
    if b = 0 ∧ (l = 6 ∨ (l = 5 ∧ ws.getD 5 0 = 65535)) then
      let mid := ((ws.drop l).take (6 - l)).map hexChars
      ':' :: ':' :: joinWith ':' (mid ++ [v4Chars (ip % 2 ^ 32)])
    else
      joinWith ':' ((ws.take b).map hexChars) ++ ':' :: ':'
        :: joinWith ':' ((ws.drop (b + l)).map hexChars)

/-! ## glibc `inet_pton6` (as called through folly's IPv6 parsing)

The parser is stated over the ':'-separated tokens of the input.  It
accepts exactly the `inet_pton6` language restricted to unbracketed,
unscoped literals: at most one "::" (a lone leading or trailing ':' is
refused), every other token a nonempty hex group, a trailing
dotted-decimal quad counting as two groups, eight groups total without a
gap and at most seven with one. -/

/-- Groups of a suffix that may end in an embedded dotted quad.  A token
containing '.' must be last and parse as IPv4 (inet_pton6 hands the rest
of the string to `inet_pton4` when it meets a '.'). -/
def parseGroupsV4Tail : List (List Char) → Option (List Nat)
  | [] => some []
  | [t] =>
    if t.contains '.' then
      match parseV4 t with
      | some v => some [v / 65536, v % 65536]
      | none => none
    else
      match parseHex t with
      | some w => some [w]
      | none => none
  | t :: ts =>
    match parseHex t, parseGroupsV4Tail ts with
    | some w, some ws => some (w :: ws)
    | _, _ => none

/-- Groups of a part that precedes a "::" gap: hex only (a dotted quad
must extend to the end of the string). -/
def parseHexGroups : List (List Char) → Option (List Nat)
  | [] => some []
  | t :: ts =>
    match parseHex t, parseHexGroups ts with
    | some w, some ws => some (w :: ws)
    | _, _ => none

/-- Token-level `inet_pton6`: see the section comment for the accepted
shapes.  `ts` is `splitOnChar ':'` of the input, so "1::2" arrives as
["1", "", "2"], "::1" as ["", "", "1"], "1::" as ["1", "", ""] and "::"
as ["", "", ""]. -/
def parse6Tokens (ts : List (List Char)) : Option (List Nat) :=
  if ts = [[], [], []] then some (List.replicate 8 0)
  else if ts.take 2 = [[], []] then
    if ts.drop 2 ≠ [] ∧ (ts.drop 2).all (fun t => !t.isEmpty) then
      match parseGroupsV4Tail (ts.drop 2) with
      | some ws =>
        if ws.length ≤ 7 then some (List.replicate (8 - ws.length) 0 ++ ws)
        else none
      | none => none
    else none
  else if 2 ≤ ts.length ∧ ts.drop (ts.length - 2) = [[], []] then
    if ts.take (ts.length - 2) ≠ [] ∧
        (ts.take (ts.length - 2)).all (fun t => !t.isEmpty) then
      match parseHexGroups (ts.take (ts.length - 2)) with
      | some ws =>
        if ws.length ≤ 7 then some (ws ++ List.replicate (8 - ws.length) 0)
        else none
      | none => none
    else none
  else if ts.all (fun t => !t.isEmpty) then
    match parseGroupsV4Tail ts with
    | some ws => if ws.length = 8 then some ws else none
    | none => none
  else
    if ts.take (ts.findIdx (fun t => t.isEmpty)) ≠ [] ∧
        ts.drop (ts.findIdx (fun t => t.isEmpty) + 1) ≠ [] ∧
        (ts.take (ts.findIdx (fun t => t.isEmpty))).all (fun t => !t.isEmpty) ∧
        (ts.drop (ts.findIdx (fun t => t.isEmpty) + 1)).all
          (fun t => !t.isEmpty) then
      match parseHexGroups (ts.take (ts.findIdx (fun t => t.isEmpty))),
          parseGroupsV4Tail (ts.drop (ts.findIdx (fun t => t.isEmpty) + 1)) with
      | some pws, some sws =>
        if pws.length + sws.length ≤ 7 then
          some (pws ++ List.replicate (8 - pws.length - sws.length) 0 ++ sws)
        else none
      | _, _ => none
    else none

/-- IPv6 literal to its eight 16-bit groups. -/
def parse6 (s : List Char) : Option (List Nat) :=
  parse6Tokens (splitOnChar ':' s)

/-! ## folly::IPAddress -/

/-- A parsed folly `IPAddress`: a V4 address carries its 32-bit value, a
V6 address its 128-bit value. -/
inductive FollyIP
  | v4 (n : Nat)
  | v6 (n : Nat)
deriving DecidableEq

/-- `IPAddress::bitCount()`. -/
def bitCount : FollyIP → Nat
  | .v4 _ => 32
  | .v6 _ => 128

/-- `IPAddress::isV4()`. -/
def isV4F : FollyIP → Bool
  | .v4 _ => true
  | .v6 _ => false

/-- `IPAddressV6::isIPv4Mapped()` on a 128-bit value: the top 96 bits
are 0x0000...0000ffff, i.e. bytes 0..9 zero and bytes 10..11 = 0xff. -/
def isMapped128 (ip : Nat) : Bool := ip / 2 ^ 32 == 65535

/-- `IPAddress::isIPv4Mapped()`: false on a V4 address. -/
def isMappedF : FollyIP → Bool
  | .v4 _ => false
  | .v6 n => isMapped128 n

/-- `IPAddress::createIPv4` (callers guarantee V4 or IPv4-mapped): the
32-bit IPv4 value. -/
def v4PartF : FollyIP → Nat
  | .v4 n => n
  | .v6 n => n % 2 ^ 32

/-- `IPAddressV4::createIPv6()`: the IPv4-mapped 128-bit value. -/
def toMapped (n : Nat) : Nat := 65535 * 2 ^ 32 + n

/-- `IPAddress::createIPv6`. -/
def v6Value : FollyIP → Nat
  | .v4 n => toMapped n
  | .v6 n => n

/-- `IPAddressV4::mask k` (callers guarantee `k ≤ 32`): zero the low
`32 - k` bits. -/
def follyMaskV4 (n k : Nat) : Nat := n - n % 2 ^ (32 - k)

/-- `IPAddressV6::mask k` (callers guarantee `k ≤ 128`): zero the low
`128 - k` bits. -/
def follyMaskV6 (n k : Nat) : Nat := n - n % 2 ^ (128 - k)

/-- `folly::IPAddress::tryFromString`: a string containing ':' is parsed
as IPv6, otherwise one containing '.' as IPv4, otherwise invalid. -/
def follyTryFromString (s : List Char) : Option FollyIP :=
  if s.contains ':' then (parse6 s).map (fun ws => FollyIP.v6 (valOfWords ws))
  else if s.contains '.' then (parseV4 s).map FollyIP.v4
  else none

/-- The error cases of `folly::IPAddress::tryCreateNetwork`. -/
inductive CIDRNetworkError
  | INVALID_DEFAULT_CIDR
  | INVALID_IP_SLASH_CIDR
  | INVALID_IP
  | INVALID_CIDR
  | CIDR_MISMATCH
deriving DecidableEq

/-- `folly::IPAddress::tryCreateNetwork(s, -1, false)` as the cast calls
it: split on '/', more than two pieces is INVALID_IP_SLASH_CIDR; with
two pieces parse the address (INVALID_IP on failure) and the mask as a
uint8 (INVALID_CIDR on failure) and require mask ≤ bitCount
(CIDR_MISMATCH); with one piece (no '/') defaultCidr = -1 selects the
family's full width.  applyMask = false: the address is returned
unmasked. -/
def tryCreateNetwork (s : List Char) : Except CIDRNetworkError (FollyIP × Nat) :=
  let vec := splitOnChar '/' s
  if 2 < vec.length then .error .INVALID_IP_SLASH_CIDR
  else if vec.length = 2 then
    match follyTryFromString (vec.getD 0 []) with
    | none => .error .INVALID_IP
    | some subnet =>
      match parseUInt8 (vec.getD 1 []) with
      | none => .error .INVALID_CIDR
      | some cidr =>
        if bitCount subnet < cidr then .error .CIDR_MISMATCH
        else .ok (subnet, cidr)
  else
    match follyTryFromString (vec.getD 0 []) with
    | none => .error .INVALID_IP
    | some subnet => .ok (subnet, bitCount subnet)

/-! ## The IPPrefix cast operator, per row
(IPPrefixType.cpp, `IPPrefixCastOperator::castFromString` /
`castToString`).  An IPPrefix value is the pair (128-bit address value,
prefix-length byte). -/

/-- Message of the no-separator / INVALID_IP_SLASH_CIDR row error. -/
def expectedFormatMsg (s : List Char) : List Char :=
  "Invalid CIDR IP address specified. Expected IP/PREFIX format, got '".data
    ++ s ++ "'".data

/-- Message of the INVALID_IP row error, quoting the split's left piece. -/
def invalidIpMsg (a : List Char) : List Char :=
  "Invalid IP address '".data ++ a ++ "'".data

/-- Message of the INVALID_CIDR row error, quoting the split's right
piece. -/
def invalidMaskMsg (b : List Char) : List Char :=
  "Mask value '".data ++ b ++ "' not a valid mask".data

/-- Message of the two prefix-bound row errors ("CIDR value '{v}' is >
network bit count '{b}'"). -/
def cidrBoundMsg (v : List Char) (b : Nat) : List Char :=
  "CIDR value '".data ++ v ++ "' is > network bit count '".data
    ++ decChars b ++ "'".data

/-- The message `castFromString` attaches to a folly network-parse error
(its switch over `maybeNet.error()`). -/
def cidrErrorMsg (s : List Char) (e : CIDRNetworkError) : List Char :=
  match e with
  | .INVALID_DEFAULT_CIDR => "defaultCidr must be <= UINT8_MAX".data
  | .INVALID_IP_SLASH_CIDR => expectedFormatMsg s
  | .INVALID_IP => invalidIpMsg ((splitOnChar '/' s).getD 0 [])
  | .INVALID_CIDR =>
    let vec := splitOnChar '/' s
    invalidMaskMsg (if 1 < vec.length then vec.getD 1 [] else [])
  | .CIDR_MISMATCH =>
    let vec := splitOnChar '/' s
    match follyTryFromString (vec.getD 0 []) with
    | some subnet =>
      cidrBoundMsg
        (if vec.length = 2 then vec.getD 1 []
         else decChars (if isV4F subnet then 32 else 128))
        (bitCount subnet)
    | none => []

/-- One row of `castFromString`: `skip` is `threadSkipErrorDetails()`
(an empty message replaces the detailed one).  Mirrors the source: the
explicit '/' check, `tryCreateNetwork`, the IPv4/IPv4-mapped bound check
against 32 (then mask the V4 part and re-embed as IPv4-mapped IPv6),
else the bound check against 128 (then mask the V6 value).  The returned
pair is (128-bit value of the masked address bytes, `net.second`). -/
def castFromStringRow (skip : Bool) (s : List Char) :
    Except (List Char) (Nat × Nat) :=
  if s.contains '/' = false then
    .error (if skip then [] else expectedFormatMsg s)
  else
    match tryCreateNetwork s with
    | .error e => .error (if skip then [] else cidrErrorMsg s e)
    | .ok (subnet, cidr) =>
      if isMappedF subnet || isV4F subnet then
        if 32 < cidr then
          .error (if skip then [] else cidrBoundMsg (decChars cidr) 32)
        else .ok (toMapped (follyMaskV4 (v4PartF subnet) cidr), cidr)
      else
        if 128 < cidr then
          .error (if skip then [] else cidrBoundMsg (decChars cidr) 128)
        else .ok (follyMaskV6 (v6Value subnet) cidr, cidr)

/-- One row of `castToString`: an IPv4-mapped stored value prints as
dotted decimal, any other as an IPv6 literal, then "/" and the prefix
byte in decimal.  No validation is performed. -/
def castToStringRow (ip p : Nat) : List Char :=
  if isMapped128 ip then v4Chars (ip % 2 ^ 32) ++ '/' :: decChars p
  else format6 ip ++ '/' :: decChars p

/-- The canonical-storage invariant of the spec: a 128-bit value, all
bits beyond the prefix length zero, the prefix length within the
family's width (32 for an IPv4-mapped value, 128 otherwise). -/
def validIPPfx (ip p : Nat) : Bool :=
  decide (ip < 2 ^ 128) &&
    (if isMapped128 ip then decide (p ≤ 32) && decide (ip % 2 ^ (32 - p) = 0)
     else decide (p ≤ 128) && decide (ip % 2 ^ (128 - p) = 0))

/-! ## The batch cast (IPPrefixType.cpp, `castFromString` whole function,
`castTo` / `castFrom` dispatch) -/

/-- The output state of one `castFromString` batch call: the two
constituent columns of the ROW(HUGEINT, TINYINT) result (allocated
all-null, `bits::kNull`) and the per-row statuses recorded through
`context.setStatus`. -/
structure BatchOut where
  ipCol : List (Option Nat)
  pfxCol : List (Option Nat)
  errs : List (Nat × List Char)
deriving DecidableEq

/-- The loop state of `castFromString`: output columns, statuses, and
the `rowIndex` counter the source increments only on success. -/
def castFromStringStep (skip : Bool) (inputs : List (List Char))
    (st : BatchOut × Nat) (row : Nat) : BatchOut × Nat :=
  match castFromStringRow skip (inputs.getD row []) with
  | .ok (v, p) =>
    (⟨st.1.ipCol.set st.2 (some v), st.1.pfxCol.set st.2 (some p),
      st.1.errs⟩, st.2 + 1)
  | .error m => (⟨st.1.ipCol, st.1.pfxCol, st.1.errs ++ [(row, m)]⟩, st.2)

/-- The whole `castFromString` batch: all-null columns of the input's
size, then `applyToSelectedNoThrow` over the active rows in order.  The
function's final `result = rowResultVector` replaces the previously
ensured-writable result with these freshly built columns. -/
def castFromStringBatch (skip : Bool) (inputs : List (List Char))
    (rows : List Nat) : BatchOut :=
  (rows.foldl (castFromStringStep skip inputs)
    (⟨List.replicate inputs.length none, List.replicate inputs.length none,
      []⟩, 0)).1

/-- The whole `castToString` batch: for each active row the formatted
string is written at that row's own position of the result (this
direction has no error path). -/
def castToStringBatch (inputs : List (Nat × Nat)) (rows : List Nat) :
    List (Option (List Char)) :=
  rows.foldl
    (fun out row =>
      out.set row (some (castToStringRow (inputs.getD row (0, 0)).1
        (inputs.getD row (0, 0)).2)))
    (List.replicate inputs.length none)

/-- The type kinds the cast dispatch inspects. -/
inductive TypeKind
  | VARCHAR
  | HUGEINT
  | ROW
  | TINYINT
deriving DecidableEq

/-- `IPPrefixCastOperator::castTo`: after `ensureWritable` (allocation
only, no row is touched), a VARCHAR input dispatches to
`castFromString`; any other input kind raises VELOX_NYI — a fatal
setup error carried on the `Except` layer, aborting the whole call
before any row is processed. -/
def castTo (inputKind : TypeKind) (skip : Bool) (inputs : List (List Char))
    (rows : List Nat) : Except (List Char) BatchOut :=
  if inputKind = .VARCHAR then .ok (castFromStringBatch skip inputs rows)
  else .error "Cast to IPPrefix not yet supported".data

/-- `IPPrefixCastOperator::castFrom`: a VARCHAR result type dispatches
to `castToString`; any other raises VELOX_NYI. -/
def castFrom (resultKind : TypeKind) (inputs : List (Nat × Nat))
    (rows : List Nat) : Except (List Char) (List (Option (List Char))) :=
  if resultKind = .VARCHAR then .ok (castToStringBatch inputs rows)
  else .error "Cast from IPPrefix not yet supported".data

/-! ## The IP scalar functions (IPAddressFunctions.h) -/

/-- `isIPV4` of IPAddressFunctions.h: `(ip & mask) == 0x0000FFFF00000000`
with `mask = (0xFFFFFFFFFFFFFFFF << 64) | 0xFFFFFFFF00000000`. -/
def isIPV4 (ip : Nat) : Bool :=
  ip &&& ((0xFFFFFFFFFFFFFFFF <<< 64) ||| 0xFFFFFFFF00000000)
    == 0x0000FFFF00000000

/-- Message of the exception folly's `mask` throws when the requested
bit count exceeds the address family's width. -/
def follyMaskErrMsg (numBits bits : Nat) : List Char :=
  "numBits(".data ++ decChars numBits ++ ") > bitCount(".data
    ++ decChars bits ++ ")".data

/-- `IPPrefixFunction::call` on an IPAddress argument: the prefix is
`(uint8_t)prefixBits` (the int64 truncated to its low byte); an
IPv4-mapped address is masked as V4 and re-embedded, any other as V6.
folly's `mask` throws when the prefix exceeds the family width (32 for
the V4 path, 128 for the V6 path); the velox code performs no bound
check of its own.  Returns (canonical 128-bit value, stored prefix). -/
def ipPrefixFn (ip : Nat) (prefixBits : Int) : Except (List Char) (Nat × Nat) :=
  let p : Nat := (prefixBits % 256).toNat
  if isMapped128 ip then
    if 32 < p then .error (follyMaskErrMsg p 32)
    else .ok (toMapped (follyMaskV4 (ip % 2 ^ 32) p), p)
  else
    if 128 < p then .error (follyMaskErrMsg p 128)
    else .ok (follyMaskV6 ip p, p)

/-- `IPSubnetMinFunction::call`: the stored ip itself. -/
def ipSubnetMin (ip _p : Nat) : Nat := ip

/-- `getIPSubnetMax`: set the bits beyond the prefix.  For a non-IPv4
value with prefix 0 the all-ones value is produced explicitly (`result
= -1` in the source) because `(1 << 128) - 1` overflows uint128. -/
def getIPSubnetMax (ip : Nat) (p : Nat) : Nat :=
  if isIPV4 ip then ip ||| ((1 <<< (32 - p)) - 1)
  else if p = 0 then 2 ^ 128 - 1
  else ip ||| ((1 <<< (128 - p)) - 1)

/-- `IPSubnetRangeFunction::call`: the ordered pair [min, max]. -/
def ipSubnetRange (ip p : Nat) : List Nat :=
  [ipSubnetMin ip p, getIPSubnetMax ip p]

/-- `IPSubnetOfFunction::call` (prefix, address): clear the candidate's
bits beyond the prefix (`checkIP &= ((mask << (w - prefix)) - 1) ^ -1`,
with the explicit prefix-0 special case on the V6 path) and compare with
the stored ip. -/
def isSubnetOfAddr (pIp pLen cand : Nat) : Bool :=
  let checkIP :=
    if isIPV4 pIp then
      cand &&& (((1 <<< (32 - pLen)) - 1) ^^^ (2 ^ 128 - 1))
    else if pLen = 0 then 0
    else cand &&& (((1 <<< (128 - pLen)) - 1) ^^^ (2 ^ 128 - 1))
  pIp == checkIP

/-- `IPSubnetOfFunction::call` (prefix, prefix): the address form on the
inner prefix's ip, and the inner prefix must be at least as long. -/
def isSubnetOfPfx (pIp pLen qIp qLen : Nat) : Bool :=
  isSubnetOfAddr pIp pLen qIp && decide (pLen ≤ qLen)

/-- The spec's masking operation: "masking candidateAddress to outer's
prefix length" — zero all bits of the candidate beyond the prefix
length, within the outer's family width (32 when the outer is
IPv4-mapped, else 128). -/
def maskToLen (outerIp len cand : Nat) : Nat :=
  cand - cand % 2 ^ ((if isMapped128 outerIp then 32 else 128) - len)

/-! ## The function registry

Modelled from the spec: the registry implementation behind
`registerFunction` (velox/functions/Registerer.h and the simple-function
registry) is not among the repository files here; only its documented
contract (the dynamic-registry notes and spec section 4.4) is.  A
signature is (name, ordered argument types); an implementation carries
its return type, which the signature excludes.  Registration overwrites
the entry with an identical signature and leaves all others alone. -/

/-- A function signature: name and ordered argument types. -/
structure FnSig where
  name : String
  argTypes : List String
deriving DecidableEq

/-- An implementation: its return type (not part of the identity) and an
identifier standing for the code. -/
structure FnImpl where
  retType : String
  fnId : Nat
deriving DecidableEq

/-- Modelled from the spec: `register(signature, implementation)` —
overwrite the entry with the same signature, else append. -/
def registerFn : List (FnSig × FnImpl) → FnSig → FnImpl → List (FnSig × FnImpl)
  | [], s, f => [(s, f)]
  | e :: r, s, f => if e.1 = s then (s, f) :: r else e :: registerFn r s f

/-- Modelled from the spec: `resolve(name, argumentTypes)` — exact-match
lookup. -/
def resolveFn : List (FnSig × FnImpl) → FnSig → Option FnImpl
  | [], _ => none
  | e :: r, s => if e.1 = s then some e.2 else resolveFn r s

/-- Number of entries with the given signature. -/
def countSig (r : List (FnSig × FnImpl)) (s : FnSig) : Nat :=
  r.countP (fun e => e.1 == s)

end VeloxIP

namespace VeloxIP

/-! ## Lemmas: digit strings -/

theorem decVal_digitChar : ∀ d, d < 10 → decVal (digitChar d) = d := by decide

theorem hexVal_digitChar : ∀ d, d < 16 → hexVal (digitChar d) = d := by decide

theorem isDecDigit_digitChar : ∀ d, d < 10 → isDecDigit (digitChar d) = true := by
  decide

theorem isHexDigit_digitChar : ∀ d, d < 16 → isHexDigit (digitChar d) = true := by
  decide

theorem digitChar_ne_colon : ∀ d, d < 16 → digitChar d ≠ ':' := by decide

theorem digitChar_ne_slash : ∀ d, d < 16 → digitChar d ≠ '/' := by decide

theorem digitChar_ne_dot : ∀ d, d < 16 → digitChar d ≠ '.' := by decide

theorem digitChar_eq_zero_iff : ∀ d, d < 16 → (digitChar d = '0' ↔ d = 0) := by
  decide

/-- Folding digit characters over the reverse of a mapped digit list
recovers `Nat.ofDigits`. -/
theorem foldl_digits_eq_ofDigits (b : Nat) (f : Char → Nat) (L : List Nat)
    (hL : ∀ d ∈ L, f (digitChar d) = d) :
    ((L.map digitChar).reverse).foldl (fun a c => a * b + f c) 0 =
      Nat.ofDigits b L := by
  rw [List.foldl_reverse]
  induction L with
  | nil => simp [Nat.ofDigits]
  | cons d L ih =>
    simp only [List.map_cons, List.foldr_cons, Nat.ofDigits_cons]
    rw [ih (fun x hx => hL x (List.mem_cons_of_mem _ hx)),
      hL d (List.mem_cons_self _ _)]
    ring

theorem decValue_decChars (n : Nat) : decValue (decChars n) = n := by
  unfold decValue decChars baseChars
  by_cases h : n = 0
  · subst h; decide
  · rw [if_neg h, foldl_digits_eq_ofDigits 10 decVal _
      (fun d hd => decVal_digitChar d (Nat.digits_lt_base (by norm_num) hd)),
      Nat.ofDigits_digits]

theorem hexValue_hexChars (n : Nat) : hexValue (hexChars n) = n := by
  unfold hexValue hexChars baseChars
  by_cases h : n = 0
  · subst h; decide
  · rw [if_neg h, foldl_digits_eq_ofDigits 16 hexVal _
      (fun d hd => hexVal_digitChar d (Nat.digits_lt_base (by norm_num) hd)),
      Nat.ofDigits_digits]

theorem baseChars_ne_nil (b n : Nat) : baseChars b n ≠ [] := by
  unfold baseChars
  by_cases h : n = 0
  · simp [h]
  · simp only [if_neg h]
    intro hc
    have hd : Nat.digits b n ≠ [] := Nat.digits_ne_nil_iff_ne_zero.2 h
    simp only [List.reverse_eq_nil_iff, List.map_eq_nil_iff] at hc
    exact hd hc

theorem decChars_ne_nil (n : Nat) : decChars n ≠ [] := baseChars_ne_nil 10 n

theorem hexChars_ne_nil (n : Nat) : hexChars n ≠ [] := baseChars_ne_nil 16 n

theorem mem_decChars (c : Char) (n : Nat) (h : c ∈ decChars n) :
    ∃ d, d < 10 ∧ c = digitChar d := by
  unfold decChars baseChars at h
  by_cases hn : n = 0
  · simp [hn] at h
    exact ⟨0, by norm_num, h⟩
  · rw [if_neg hn] at h
    simp only [List.mem_reverse, List.mem_map] at h
    obtain ⟨d, hd, rfl⟩ := h
    exact ⟨d, Nat.digits_lt_base (by norm_num) hd, rfl⟩

theorem mem_hexChars (c : Char) (n : Nat) (h : c ∈ hexChars n) :
    ∃ d, d < 16 ∧ c = digitChar d := by
  unfold hexChars baseChars at h
  by_cases hn : n = 0
  · simp [hn] at h
    exact ⟨0, by norm_num, h⟩
  · rw [if_neg hn] at h
    simp only [List.mem_reverse, List.mem_map] at h
    obtain ⟨d, hd, rfl⟩ := h
    exact ⟨d, Nat.digits_lt_base (by norm_num) hd, rfl⟩

theorem decChars_all_isDecDigit (n : Nat) :
    (decChars n).all isDecDigit = true := by
  rw [List.all_eq_true]
  intro c hc
  obtain ⟨d, hd, rfl⟩ := mem_decChars c n hc
  exact isDecDigit_digitChar d hd

theorem hexChars_all_isHexDigit (n : Nat) :
    (hexChars n).all isHexDigit = true := by
  rw [List.all_eq_true]
  intro c hc
  obtain ⟨d, hd, rfl⟩ := mem_hexChars c n hc
  exact isHexDigit_digitChar d (by omega)

theorem colon_not_mem_decChars (n : Nat) : ':' ∉ decChars n := by
  intro h
  obtain ⟨d, hd, he⟩ := mem_decChars ':' n h
  exact digitChar_ne_colon d (by omega) he.symm

theorem colon_not_mem_hexChars (n : Nat) : ':' ∉ hexChars n := by
  intro h
  obtain ⟨d, hd, he⟩ := mem_hexChars ':' n h
  exact digitChar_ne_colon d hd he.symm

theorem slash_not_mem_decChars (n : Nat) : '/' ∉ decChars n := by
  intro h
  obtain ⟨d, hd, he⟩ := mem_decChars '/' n h
  exact digitChar_ne_slash d (by omega) he.symm

theorem slash_not_mem_hexChars (n : Nat) : '/' ∉ hexChars n := by
  intro h
  obtain ⟨d, hd, he⟩ := mem_hexChars '/' n h
  exact digitChar_ne_slash d hd he.symm

theorem dot_not_mem_decChars (n : Nat) : '.' ∉ decChars n := by
  intro h
  obtain ⟨d, hd, he⟩ := mem_decChars '.' n h
  exact digitChar_ne_dot d (by omega) he.symm

theorem dot_not_mem_hexChars (n : Nat) : '.' ∉ hexChars n := by
  intro h
  obtain ⟨d, hd, he⟩ := mem_hexChars '.' n h
  exact digitChar_ne_dot d hd he.symm

theorem parseDecAll_decChars (n : Nat) : parseDecAll (decChars n) = some n := by
  unfold parseDecAll
  rw [if_pos ⟨decChars_ne_nil n, decChars_all_isDecDigit n⟩, decValue_decChars]

theorem parseUInt8_decChars (n : Nat) (h : n ≤ 255) :
    parseUInt8 (decChars n) = some n := by
  unfold parseUInt8
  rw [parseDecAll_decChars]
  simp [h]

theorem parseHex_hexChars (n : Nat) (h : n ≤ 65535) :
    parseHex (hexChars n) = some n := by
  unfold parseHex
  rw [if_pos ⟨hexChars_ne_nil n, hexChars_all_isHexDigit n⟩, hexValue_hexChars,
    if_pos h]

/-- The leading character of a nonzero decimal representation is not
'0'. -/
theorem decChars_headD_ne_zero (n : Nat) (h : n ≠ 0) :
    (decChars n).headD ' ' ≠ '0' := by
  unfold decChars baseChars
  rw [if_neg h]
  have hnil : Nat.digits 10 n ≠ [] := Nat.digits_ne_nil_iff_ne_zero.2 h
  rw [← List.map_reverse]
  obtain ⟨d, L, hrev⟩ : ∃ d L, (Nat.digits 10 n).reverse = d :: L := by
    cases hr : (Nat.digits 10 n).reverse with
    | nil =>
      exact absurd (by simpa using congrArg List.reverse hr) hnil
    | cons d L => exact ⟨d, L, rfl⟩
  rw [hrev]
  simp only [List.map_cons, List.headD_cons]
  have hmem : d ∈ Nat.digits 10 n := by
    have hm : d ∈ (Nat.digits 10 n).reverse := by
      rw [hrev]; exact List.mem_cons_self _ _
    simpa using hm
  have hlt : d < 10 := Nat.digits_lt_base (by norm_num) hmem
  have hd0 : d ≠ 0 := by
    have h1 : (Nat.digits 10 n).getLast? = some d := by
      rw [← List.head?_reverse, hrev]; rfl
    rw [List.getLast?_eq_getLast _ hnil] at h1
    have h2 : d = (Nat.digits 10 n).getLast hnil := by
      injection h1 with h1; exact h1.symm
    rw [h2]
    exact Nat.getLast_digit_ne_zero 10 h
  intro hc
  exact hd0 ((digitChar_eq_zero_iff d (by omega)).1 hc)

theorem parseOctet_decChars (n : Nat) (h : n ≤ 255) :
    parseOctet (decChars n) = some n := by
  unfold parseOctet
  have hcond : decChars n ≠ [] ∧ (decChars n).all isDecDigit = true ∧
      ((decChars n).length = 1 ∨ (decChars n).headD ' ' ≠ '0') := by
    refine ⟨decChars_ne_nil n, decChars_all_isDecDigit n, ?_⟩
    by_cases hn : n = 0
    · left; subst hn; decide
    · right; exact decChars_headD_ne_zero n hn
  rw [if_pos hcond, decValue_decChars, if_pos h]

/-! ## Lemmas: splitting and joining -/

theorem splitOnChar_ne_nil (c : Char) (l : List Char) :
    splitOnChar c l ≠ [] := by
  induction l with
  | nil => simp [splitOnChar]
  | cons x xs ih =>
    unfold splitOnChar
    by_cases hx : x = c
    · simp [hx]
    · rw [if_neg hx]
      cases hs : splitOnChar c xs with
      | nil => simp
      | cons t ts => simp

theorem splitOnChar_of_not_mem {c : Char} {l : List Char} (h : c ∉ l) :
    splitOnChar c l = [l] := by
  induction l with
  | nil => rfl
  | cons x xs ih =>
    unfold splitOnChar
    have hx : x ≠ c := fun he => h (he ▸ List.mem_cons_self x xs)
    rw [if_neg hx, ih (fun hm => h (List.mem_cons_of_mem x hm))]

theorem splitOnChar_cons_sep (c : Char) (l : List Char) :
    splitOnChar c (c :: l) = [] :: splitOnChar c l := by
  simp [splitOnChar]

theorem splitOnChar_append (c : Char) (l₁ l₂ : List Char) :
    splitOnChar c (l₁ ++ c :: l₂) = splitOnChar c l₁ ++ splitOnChar c l₂ := by
  induction l₁ with
  | nil => simp [splitOnChar_cons_sep, splitOnChar]
  | cons x xs ih =>
    by_cases hx : x = c
    · subst hx
      rw [List.cons_append, splitOnChar_cons_sep, splitOnChar_cons_sep, ih,
        List.cons_append]
    · rw [List.cons_append]
      simp only [splitOnChar, if_neg hx, ih]
      cases hs : splitOnChar c xs with
      | nil => exact absurd hs (splitOnChar_ne_nil c xs)
      | cons t ts => simp [hs]

theorem joinWith_eq_cons (c : Char) (t : List Char) (ts : List (List Char))
    (h : ts ≠ []) : joinWith c (t :: ts) = t ++ c :: joinWith c ts := by
  cases ts with
  | nil => exact absurd rfl h
  | cons u us => rfl

theorem splitOnChar_joinWith (c : Char) (ts : List (List Char))
    (hne : ts ≠ []) (h : ∀ t ∈ ts, c ∉ t) :
    splitOnChar c (joinWith c ts) = ts := by
  induction ts with
  | nil => exact absurd rfl hne
  | cons t us ih =>
    cases hus : us with
    | nil =>
      exact splitOnChar_of_not_mem (h t (List.mem_cons_self t us))
    | cons u vs =>
      rw [← hus, joinWith_eq_cons c t us (by simp [hus]),
        splitOnChar_append,
        splitOnChar_of_not_mem (h t (List.mem_cons_self t us)),
        ih (by simp [hus]) (fun x hx => h x (List.mem_cons_of_mem t hx))]
      rfl

theorem mem_joinWith {c d : Char} {ts : List (List Char)}
    (h : d ∈ joinWith c ts) : d = c ∨ ∃ t ∈ ts, d ∈ t := by
  induction ts with
  | nil => simp [joinWith] at h
  | cons t us ih =>
    by_cases hus : us = []
    · subst hus
      exact Or.inr ⟨t, List.mem_cons_self t [], h⟩
    · rw [joinWith_eq_cons c t us hus] at h
      rcases List.mem_append.1 h with hm | hm
      · exact Or.inr ⟨t, List.mem_cons_self t us, hm⟩
      · rcases List.mem_cons.1 hm with hm | hm
        · exact Or.inl hm
        · rcases ih hm with hm | ⟨x, hx, hdx⟩
          · exact Or.inl hm
          · exact Or.inr ⟨x, List.mem_cons_of_mem t hx, hdx⟩

theorem contains_of_mem {c : Char} {l : List Char} (h : c ∈ l) :
    l.contains c = true := List.elem_iff.2 h

theorem contains_eq_false {c : Char} {l : List Char} (h : c ∉ l) :
    l.contains c = false := by
  rw [← Bool.not_eq_true]
  exact fun hc => h (List.elem_iff.1 hc)

/-! ## Lemmas: IPv4 literals -/

theorem colon_not_mem_v4Chars (v : Nat) : ':' ∉ v4Chars v := by
  unfold v4Chars
  intro h
  simp only [List.mem_append, List.mem_cons] at h
  rcases h with ((h | h | h) | h | h) | h | h
  · exact colon_not_mem_decChars _ h
  · exact absurd h (by decide)
  · exact colon_not_mem_decChars _ h
  · exact absurd h (by decide)
  · exact colon_not_mem_decChars _ h
  · exact absurd h (by decide)
  · exact colon_not_mem_decChars _ h

theorem slash_not_mem_v4Chars (v : Nat) : '/' ∉ v4Chars v := by
  unfold v4Chars
  intro h
  simp only [List.mem_append, List.mem_cons] at h
  rcases h with ((h | h | h) | h | h) | h | h
  · exact slash_not_mem_decChars _ h
  · exact absurd h (by decide)
  · exact slash_not_mem_decChars _ h
  · exact absurd h (by decide)
  · exact slash_not_mem_decChars _ h
  · exact absurd h (by decide)
  · exact slash_not_mem_decChars _ h

theorem dot_mem_v4Chars (v : Nat) : '.' ∈ v4Chars v := by
  unfold v4Chars
  exact List.mem_append.2 (Or.inr (List.mem_cons_self _ _))

theorem splitOnChar_dot_v4Chars (v : Nat) :
    splitOnChar '.' (v4Chars v) =
      [decChars (v / 2 ^ 24 % 256), decChars (v / 2 ^ 16 % 256),
       decChars (v / 2 ^ 8 % 256), decChars (v % 256)] := by
  unfold v4Chars
  rw [splitOnChar_append, splitOnChar_append, splitOnChar_append,
    splitOnChar_of_not_mem (dot_not_mem_decChars _),
    splitOnChar_of_not_mem (dot_not_mem_decChars _),
    splitOnChar_of_not_mem (dot_not_mem_decChars _),
    splitOnChar_of_not_mem (dot_not_mem_decChars _)]
  rfl

theorem parseV4_v4Chars (v : Nat) (h : v < 2 ^ 32) :
    parseV4 (v4Chars v) = some v := by
  have h1 : v / 2 ^ 24 % 256 ≤ 255 := Nat.le_of_lt_succ (Nat.mod_lt _ (by norm_num))
  have h2 : v / 2 ^ 16 % 256 ≤ 255 := Nat.le_of_lt_succ (Nat.mod_lt _ (by norm_num))
  have h3 : v / 2 ^ 8 % 256 ≤ 255 := Nat.le_of_lt_succ (Nat.mod_lt _ (by norm_num))
  have h4 : v % 256 ≤ 255 := Nat.le_of_lt_succ (Nat.mod_lt _ (by norm_num))
  simp only [parseV4, splitOnChar_dot_v4Chars, parseOctet_decChars _ h1,
    parseOctet_decChars _ h2, parseOctet_decChars _ h3,
    parseOctet_decChars _ h4, Option.some.injEq]
  omega

/-! ## Lemmas: words of a 128-bit value -/

theorem valOfWords_wordsOf (ip : Nat) (h : ip < 2 ^ 128) :
    valOfWords (wordsOf ip) = ip := by
  simp only [wordsOf, valOfWords, List.foldl_cons, List.foldl_nil]
  omega

theorem wordsOf_length (ip : Nat) : (wordsOf ip).length = 8 := rfl

theorem wordsOf_lt (ip : Nat) : ∀ w ∈ wordsOf ip, w ≤ 65535 := by
  intro w hw
  simp only [wordsOf, List.mem_cons, List.not_mem_nil, or_false] at hw
  rcases hw with h | h | h | h | h | h | h | h <;> subst h <;>
    exact Nat.le_of_lt_succ (Nat.mod_lt _ (by norm_num))

/-! ## Lemmas: the best zero run -/

theorem bestRun_spec (ws : List Nat) (b l : Nat)
    (h : bestRun ws = some (b, l)) :
    2 ≤ l ∧ b + l ≤ ws.length ∧ (ws.drop b).take l = List.replicate l 0 := by
  unfold bestRun bestBase at h
  set m := ((List.range ws.length).map (runLen ws)).foldr max 0 with hm
  by_cases h2 : 2 ≤ m
  · rw [if_pos h2] at h
    cases hf : (List.range ws.length).find? (fun i => runLen ws i == m) with
    | none => rw [hf] at h; simp at h
    | some i =>
      rw [hf] at h
      simp only [Option.map_some', Option.some.injEq, Prod.mk.injEq] at h
      obtain ⟨hb, hl⟩ := h
      have hbm : runLen ws i = m := by simpa using List.find?_some hf
      have hmem : i ∈ List.range ws.length := List.mem_of_find?_eq_some hf
      have hblt : i < ws.length := List.mem_range.1 hmem
      subst hb
      subst hl
      refine ⟨by omega, ?_, ?_⟩
      · have hle : runLen ws i ≤ (ws.drop i).length :=
          (List.takeWhile_prefix _).length_le
        rw [List.length_drop] at hle
        omega
      · have hpre : (ws.drop i).takeWhile (fun w => w == 0) <+: ws.drop i :=
          List.takeWhile_prefix _
        have htake : (ws.drop i).take (runLen ws i) =
            (ws.drop i).takeWhile (fun w => w == 0) := by
          unfold runLen
          exact (List.prefix_iff_eq_take.1 hpre).symm
        rw [htake]
        refine List.eq_replicate_iff.2 ⟨rfl, ?_⟩
        intro x hx
        have hx0 := List.mem_takeWhile_imp hx
        simpa using hx0
  · rw [if_neg h2] at h
    simp at h

/-! ## Lemmas: token-level IPv6 parsing on the formatter's shapes -/

theorem mem_of_getLastQ {α : Type} {l : List α} {x : α}
    (h : l.getLast? = some x) : x ∈ l := by
  cases l with
  | nil => simp at h
  | cons a as =>
    rw [List.getLast?_eq_getLast _ (by simp)] at h
    injection h with h
    rw [← h]
    exact List.getLast_mem _

theorem ne_nil_of_all_nonempty {ts : List (List Char)}
    (h : ts.all (fun t => !t.isEmpty) = true) {t : List Char} (ht : t ∈ ts) :
    t ≠ [] := by
  have h2 := List.all_eq_true.1 h t ht
  simpa using h2

theorem headQ_of_take2 {ts : List (List Char)} (h : ts.take 2 = [[], []]) :
    ts.head? = some [] := by
  cases ts with
  | nil => simp at h
  | cons a ts2 =>
    cases ts2 with
    | nil => simp at h
    | cons b ts3 =>
      simp only [List.take, List.cons.injEq] at h
      simp [h.1]

theorem getLastQ_of_drop2 {ts : List (List Char)}
    (h : ts.drop (ts.length - 2) = [[], []]) : ts.getLast? = some [] := by
  have hsplit := List.take_append_drop (ts.length - 2) ts
  have hg : ts.getLast? =
      (ts.take (ts.length - 2) ++ ts.drop (ts.length - 2)).getLast? := by
    rw [hsplit]
  rw [hg, List.getLast?_append, h]
  rfl

/-- The three "gap at an edge" conditions of `parse6Tokens` all fail
when every token is nonempty. -/
theorem allNE_conds {ts : List (List Char)}
    (hall : ts.all (fun t => !t.isEmpty) = true) :
    ts ≠ [[], [], []] ∧ ts.take 2 ≠ [[], []]
      ∧ ¬(2 ≤ ts.length ∧ ts.drop (ts.length - 2) = [[], []]) := by
  refine ⟨?_, ?_, ?_⟩
  · intro h
    subst h
    exact ne_nil_of_all_nonempty hall (List.mem_cons_self _ _) rfl
  · intro h
    have hh := headQ_of_take2 h
    cases ts with
    | nil => simp at hh
    | cons a ts2 =>
      injection hh with hh
      exact ne_nil_of_all_nonempty hall (List.mem_cons_self _ _) hh
  · rintro ⟨h1, h2⟩
    have hg := getLastQ_of_drop2 h2
    exact ne_nil_of_all_nonempty hall (mem_of_getLastQ hg) rfl

theorem parseHexGroups_map (ws : List Nat) (h : ∀ w ∈ ws, w ≤ 65535) :
    parseHexGroups (ws.map hexChars) = some ws := by
  induction ws with
  | nil => rfl
  | cons w ws ih =>
    simp only [List.map_cons, parseHexGroups,
      parseHex_hexChars w (h w (List.mem_cons_self _ _)),
      ih (fun x hx => h x (List.mem_cons_of_mem _ hx))]

theorem parseGroupsV4Tail_map (ws : List Nat) (h : ∀ w ∈ ws, w ≤ 65535) :
    parseGroupsV4Tail (ws.map hexChars) = some ws := by
  induction ws with
  | nil => rfl
  | cons w ws ih =>
    cases hws : ws with
    | nil =>
      simp [parseGroupsV4Tail, dot_not_mem_hexChars w,
        parseHex_hexChars w (h w (List.mem_cons_self _ _))]
    | cons u us =>
      rw [← hws]
      have hm : ws.map hexChars ≠ [] := by simp [hws]
      cases hmap : ws.map hexChars with
      | nil => exact absurd hmap hm
      | cons t ts =>
        simp only [List.map_cons, hmap, parseGroupsV4Tail,
          parseHex_hexChars w (h w (List.mem_cons_self _ _))]
        rw [← hmap, ih (fun x hx => h x (List.mem_cons_of_mem _ hx))]

theorem parseGroupsV4Tail_map_v4 (ws : List Nat) (v : Nat)
    (h : ∀ w ∈ ws, w ≤ 65535) (hv : v < 2 ^ 32) :
    parseGroupsV4Tail (ws.map hexChars ++ [v4Chars v]) =
      some (ws ++ [v / 65536, v % 65536]) := by
  induction ws with
  | nil =>
    simp [parseGroupsV4Tail, dot_mem_v4Chars v, parseV4_v4Chars v hv]
  | cons w ws ih =>
    have hne : ws.map hexChars ++ [v4Chars v] ≠ [] := by simp
    cases hmap : ws.map hexChars ++ [v4Chars v] with
    | nil => exact absurd hmap hne
    | cons t ts =>
      simp only [List.map_cons, List.cons_append, hmap, parseGroupsV4Tail,
        parseHex_hexChars w (h w (List.mem_cons_self _ _))]
      rw [← hmap, ih (fun x hx => h x (List.mem_cons_of_mem _ hx))]

theorem parse6Tokens_allzero :
    parse6Tokens [[], [], []] = some (List.replicate 8 0) := rfl

theorem parse6Tokens_nogap (ts : List (List Char)) (ws : List Nat)
    (hall : ts.all (fun t => !t.isEmpty) = true)
    (hp : parseGroupsV4Tail ts = some ws) (hlen : ws.length = 8) :
    parse6Tokens ts = some ws := by
  obtain ⟨h1, h2, h3⟩ := allNE_conds hall
  unfold parse6Tokens
  rw [if_neg h1, if_neg h2, if_neg h3, if_pos hall, hp]
  simp [hlen]

theorem parse6Tokens_leading (rest : List (List Char)) (ws : List Nat)
    (hall : rest.all (fun t => !t.isEmpty) = true) (hne : rest ≠ [])
    (hp : parseGroupsV4Tail rest = some ws) (hlen : ws.length ≤ 7) :
    parse6Tokens ([] :: [] :: rest) =
      some (List.replicate (8 - ws.length) 0 ++ ws) := by
  have h1 : ([] :: [] :: rest : List (List Char)) ≠ [[], [], []] := by
    intro h
    injection h with _ h
    injection h with _ h
    cases rest with
    | nil => exact hne rfl
    | cons r rest2 =>
      injection h with hr _
      exact ne_nil_of_all_nonempty hall (List.mem_cons_self _ _) hr
  have h2 : (([] :: [] :: rest : List (List Char))).take 2 = [[], []] := rfl
  unfold parse6Tokens
  rw [if_neg h1, if_pos h2]
  have hdrop : List.drop 2 ([] :: [] :: rest) = rest := rfl
  simp only [hdrop]
  rw [if_pos ⟨hne, hall⟩, hp]
  simp [hlen]

theorem parse6Tokens_trailing (pre : List (List Char)) (ws : List Nat)
    (hall : pre.all (fun t => !t.isEmpty) = true) (hne : pre ≠ [])
    (hp : parseHexGroups pre = some ws) (hlen : ws.length ≤ 7) :
    parse6Tokens (pre ++ [[], []]) =
      some (ws ++ List.replicate (8 - ws.length) 0) := by
  have hpre0 : pre.head? ≠ some [] := by
    cases pre with
    | nil => exact absurd rfl hne
    | cons a pre2 =>
      intro h
      injection h with h
      exact ne_nil_of_all_nonempty hall (List.mem_cons_self _ _) h
  have hts : (pre ++ [[], []] : List (List Char)).head? = pre.head? := by
    rw [List.head?_append]
    cases pre with
    | nil => exact absurd rfl hne
    | cons a pre2 => rfl
  have h1 : (pre ++ [[], []] : List (List Char)) ≠ [[], [], []] := by
    intro h
    apply hpre0
    rw [← hts, h]
    rfl
  have h2 : (pre ++ [[], []] : List (List Char)).take 2 ≠ [[], []] := by
    intro h
    exact hpre0 ((hts.symm).trans (headQ_of_take2 h))
  have hlen2 : (pre ++ [[], []] : List (List Char)).length = pre.length + 2 := by
    simp
  have h3 : 2 ≤ (pre ++ [[], []] : List (List Char)).length ∧
      (pre ++ [[], []] : List (List Char)).drop
        ((pre ++ [[], []] : List (List Char)).length - 2) = [[], []] := by
    constructor
    · omega
    · rw [hlen2]
      have : pre.length + 2 - 2 = pre.length := by omega
      rw [this, List.drop_left]
  have htake : (pre ++ [[], []] : List (List Char)).take
      ((pre ++ [[], []] : List (List Char)).length - 2) = pre := by
    rw [hlen2]
    have he : pre.length + 2 - 2 = pre.length := by omega
    rw [he, List.take_left]
  unfold parse6Tokens
  rw [if_neg h1, if_neg h2, if_pos h3]
  simp only [htake]
  rw [if_pos ⟨hne, hall⟩, hp]
  simp [hlen]

theorem findIdx_append_empty (pre post : List (List Char))
    (hall : pre.all (fun t => !t.isEmpty) = true) :
    (pre ++ [[]] ++ post).findIdx (fun (t : List Char) => t.isEmpty) =
      pre.length := by
  induction pre with
  | nil => simp [List.findIdx_cons]
  | cons a pre2 ih =>
    have ha : a ≠ [] := ne_nil_of_all_nonempty hall (List.mem_cons_self _ _)
    have ha2 : a.isEmpty = false := by
      cases a with
      | nil => exact absurd rfl ha
      | cons x xs => rfl
    simp only [List.cons_append, List.findIdx_cons, ha2, List.length_cons]
    rw [ih (by
      rw [List.all_eq_true] at hall ⊢
      exact fun x hx => hall x (List.mem_cons_of_mem _ hx))]
    rfl

theorem parse6Tokens_middle (pre post : List (List Char)) (pws sws : List Nat)
    (hallp : pre.all (fun t => !t.isEmpty) = true) (hnep : pre ≠ [])
    (halls : post.all (fun t => !t.isEmpty) = true) (hnes : post ≠ [])
    (hp : parseHexGroups pre = some pws)
    (hs : parseGroupsV4Tail post = some sws)
    (hlen : pws.length + sws.length ≤ 7) :
    parse6Tokens (pre ++ [[]] ++ post) =
      some (pws ++ List.replicate (8 - pws.length - sws.length) 0 ++ sws) := by
  have hpre0 : pre.head? ≠ some [] := by
    cases pre with
    | nil => exact absurd rfl hnep
    | cons a pre2 =>
      intro h
      injection h with h
      exact ne_nil_of_all_nonempty hallp (List.mem_cons_self _ _) h
  have hts : (pre ++ [[]] ++ post : List (List Char)).head? = pre.head? := by
    rw [List.append_assoc, List.head?_append]
    cases pre with
    | nil => exact absurd rfl hnep
    | cons a pre2 => rfl
  have h1 : (pre ++ [[]] ++ post : List (List Char)) ≠ [[], [], []] := by
    intro h
    apply hpre0
    rw [← hts, h]
    rfl
  have h2 : (pre ++ [[]] ++ post : List (List Char)).take 2 ≠ [[], []] := by
    intro h
    exact hpre0 ((hts.symm).trans (headQ_of_take2 h))
  have h3 : ¬(2 ≤ (pre ++ [[]] ++ post : List (List Char)).length ∧
      (pre ++ [[]] ++ post : List (List Char)).drop
        ((pre ++ [[]] ++ post : List (List Char)).length - 2) = [[], []]) := by
    rintro ⟨_, hd⟩
    have hg := getLastQ_of_drop2 hd
    rw [List.append_assoc, List.getLast?_append] at hg
    cases hlast : post.getLast? with
    | none =>
      rw [List.getLast?_eq_none_iff] at hlast
      exact hnes hlast
    | some z =>
      have hz : z ∈ post := mem_of_getLastQ hlast
      have hz2 : ([[]] ++ post : List (List Char)).getLast? = some z := by
        rw [List.getLast?_append, hlast]
        rfl
      rw [hz2] at hg
      have hzz : z = [] := by
        simp at hg
        exact hg
      exact ne_nil_of_all_nonempty halls hz hzz
  have h4 : ¬((pre ++ [[]] ++ post : List (List Char)).all
      (fun t => !t.isEmpty) = true) := by
    intro h
    apply ne_nil_of_all_nonempty h (t := ([] : List Char)) ?_ rfl
    simp
  unfold parse6Tokens
  rw [if_neg h1, if_neg h2, if_neg h3]
  rw [if_neg h4]
  rw [findIdx_append_empty pre post hallp]
  have htake : (pre ++ [[]] ++ post : List (List Char)).take pre.length = pre := by
    rw [List.append_assoc]
    exact List.take_left ..
  have hdrop : (pre ++ [[]] ++ post : List (List Char)).drop (pre.length + 1) =
      post := by
    have hlen1 : (pre ++ [[]] : List (List Char)).length = pre.length + 1 := by
      simp
    rw [← hlen1]
    exact List.drop_left ..
  simp only [htake, hdrop]
  rw [if_pos ⟨hnep, hnes, hallp, halls⟩, hp, hs]
  simp [hlen]

/-! ## Lemmas: the formatter's token structure -/

theorem map_hexChars_all_nonempty (ws : List Nat) :
    ((ws.map hexChars).all (fun t => !t.isEmpty)) = true := by
  rw [List.all_eq_true]
  intro t ht
  simp only [List.mem_map] at ht
  obtain ⟨w, _, rfl⟩ := ht
  cases hc : hexChars w with
  | nil => exact absurd hc (hexChars_ne_nil w)
  | cons c cs => rfl

theorem colon_not_mem_map_hexChars {t : List Char} {ws : List Nat}
    (ht : t ∈ ws.map hexChars) : ':' ∉ t := by
  simp only [List.mem_map] at ht
  obtain ⟨w, _, rfl⟩ := ht
  exact colon_not_mem_hexChars w

theorem v4Chars_ne_nil (v : Nat) : v4Chars v ≠ [] := by
  unfold v4Chars
  intro h
  rcases List.append_eq_nil.1 h with ⟨h1, _⟩
  rcases List.append_eq_nil.1 h1 with ⟨h2, _⟩
  rcases List.append_eq_nil.1 h2 with ⟨h3, _⟩
  exact decChars_ne_nil _ h3

/-- The split of the gap-form output: tokens of the part before "::",
one empty token, tokens of the part after. -/
theorem splitOnChar_gap (preT postT : List (List Char))
    (hpre : ∀ t ∈ preT, ':' ∉ t) (hpost : ∀ t ∈ postT, ':' ∉ t) :
    splitOnChar ':' (joinWith ':' preT ++ ':' :: ':' :: joinWith ':' postT) =
      (if preT = [] then [[]] else preT)
        ++ [] :: (if postT = [] then [[]] else postT) := by
  have hsplit : splitOnChar ':'
      (joinWith ':' preT ++ ':' :: (':' :: joinWith ':' postT)) =
      splitOnChar ':' (joinWith ':' preT)
        ++ splitOnChar ':' (':' :: joinWith ':' postT) :=
    splitOnChar_append ':' _ _
  rw [hsplit, splitOnChar_cons_sep]
  congr 1
  · by_cases hp : preT = []
    · subst hp; rfl
    · rw [if_neg hp, splitOnChar_joinWith ':' preT hp hpre]
  · congr 1
    by_cases hp : postT = []
    · subst hp; rfl
    · rw [if_neg hp, splitOnChar_joinWith ':' postT hp hpost]

theorem ws_decomp (ws : List Nat) (b l : Nat)
    (hrun : (ws.drop b).take l = List.replicate l 0) :
    ws = ws.take b ++ List.replicate l 0 ++ ws.drop (b + l) := by
  have h1 : ws.drop b = List.replicate l 0 ++ ws.drop (b + l) := by
    conv_lhs => rw [← List.take_append_drop l (ws.drop b)]
    rw [hrun, List.drop_drop]
  conv_lhs => rw [← List.take_append_drop b ws]
  rw [h1, List.append_assoc]

/-! ## The main IPv6 round trip -/

theorem parse6_format6 (ip : Nat) (hip : ip < 2 ^ 128)
    (hm : isMapped128 ip = false) :
    parse6 (format6 ip) = some (wordsOf ip) := by
  have hmne : ¬(ip / 2 ^ 32 = 65535) := by
    simpa [isMapped128] using hm
  have hwlt := wordsOf_lt ip
  have hwlen : (wordsOf ip).length = 8 := wordsOf_length ip
  unfold parse6 format6
  cases hbr : bestRun (wordsOf ip) with
  | none =>
    simp only [hbr]
    rw [splitOnChar_joinWith ':' _
        (by
          intro h
          have h2 := List.map_eq_nil_iff.1 h
          have h3 := congrArg List.length h2
          rw [hwlen] at h3
          simp at h3)
        (fun t ht => colon_not_mem_map_hexChars ht)]
    exact parse6Tokens_nogap _ _ (map_hexChars_all_nonempty _)
      (parseGroupsV4Tail_map _ hwlt) (by simp [hwlen])
  | some bl =>
    obtain ⟨b, l⟩ := bl
    obtain ⟨hl2, hbl, hrun⟩ := bestRun_spec _ _ _ hbr
    simp only [hbr]
    by_cases hsp : b = 0 ∧ (l = 6 ∨ l = 5 ∧ (wordsOf ip).getD 5 0 = 65535)
    · rw [if_pos hsp]
      obtain ⟨hb0, hl56⟩ := hsp
      subst hb0
      rcases hl56 with hl6 | ⟨hl5, hw5⟩
      · -- run of words 0..5: output "::a.b.c.d"
        subst hl6
        have hmid : List.map hexChars
            (List.take (6 - 6) (List.drop 6 (wordsOf ip))) = [] := by simp
        rw [hmid, List.nil_append]
        have hsplit : splitOnChar ':'
            (':' :: ':' :: joinWith ':' [v4Chars (ip % 2 ^ 32)]) =
            [] :: [] :: [v4Chars (ip % 2 ^ 32)] := by
          rw [splitOnChar_cons_sep, splitOnChar_cons_sep]
          rw [splitOnChar_joinWith ':' _ (by simp)
            (by
              intro t ht
              simp only [List.mem_singleton] at ht
              subst ht
              exact colon_not_mem_v4Chars _)]
        rw [hsplit]
        have hv32 : ip % 2 ^ 32 < 2 ^ 32 := Nat.mod_lt _ (by norm_num)
        have hparse : parseGroupsV4Tail [v4Chars (ip % 2 ^ 32)] =
            some [ip % 2 ^ 32 / 65536, ip % 2 ^ 32 % 65536] := by
          have hg := parseGroupsV4Tail_map_v4 [] (ip % 2 ^ 32) (by simp) hv32
          simpa using hg
        rw [parse6Tokens_leading [v4Chars (ip % 2 ^ 32)]
          [ip % 2 ^ 32 / 65536, ip % 2 ^ 32 % 65536]
          (by
            rw [List.all_eq_true]
            intro t ht
            simp only [List.mem_singleton] at ht
            subst ht
            cases hc : v4Chars (ip % 2 ^ 32) with
            | nil => exact absurd hc (v4Chars_ne_nil _)
            | cons c cs => rfl)
          (by simp) hparse (by simp)]
        have hdec := ws_decomp (wordsOf ip) 0 6 hrun
        simp only [List.take_zero, List.nil_append] at hdec
        have hdrop6 : List.drop (0 + 6) (wordsOf ip) =
            [ip / 2 ^ 16 % 65536, ip % 65536] := rfl
        rw [hdrop6] at hdec
        have he1 : ip % 2 ^ 32 / 65536 = ip / 2 ^ 16 % 65536 := by omega
        have he2 : ip % 2 ^ 32 % 65536 = ip % 65536 := by omega
        rw [he1, he2]
        conv_rhs => rw [hdec]
        rfl
      · -- run of words 0..4 with word 5 = 0xffff: the value would be
        -- IPv4-mapped, excluded by the hypothesis
        exfalso
        subst hl5
        have htake5 : (wordsOf ip).take 5 = List.replicate 5 0 := by
          simpa using hrun
        have hred : (wordsOf ip).take 5 =
            [ip / 2 ^ 112 % 65536, ip / 2 ^ 96 % 65536, ip / 2 ^ 80 % 65536,
             ip / 2 ^ 64 % 65536, ip / 2 ^ 48 % 65536] := rfl
        have hrep : (List.replicate 5 (0 : Nat)) = [0, 0, 0, 0, 0] := rfl
        rw [hred, hrep] at htake5
        simp only [List.cons.injEq, eq_self_iff_true, and_true] at htake5
        obtain ⟨e0, e1, e2, e3, e4⟩ := htake5
        have h5 : ip / 2 ^ 32 % 65536 = 65535 := hw5
        exact hmne (by omega)
    · rw [if_neg hsp]
      rw [splitOnChar_gap _ _
        (fun t ht => colon_not_mem_map_hexChars ht)
        (fun t ht => colon_not_mem_map_hexChars ht)]
      have hdec := ws_decomp (wordsOf ip) b l hrun
      by_cases hb0 : ((wordsOf ip).take b).map hexChars = []
      · have hbnil : (wordsOf ip).take b = [] := List.map_eq_nil_iff.1 hb0
        have hb : b = 0 := by
          have hlb := congrArg List.length hbnil
          simp only [List.length_take, hwlen, List.length_nil] at hlb
          omega
        subst hb
        rw [if_pos hb0]
        by_cases hp0 : ((wordsOf ip).drop (0 + l)).map hexChars = []
        · -- the run covers everything: "::"
          have hpnil : (wordsOf ip).drop (0 + l) = [] :=
            List.map_eq_nil_iff.1 hp0
          have hl8 : l = 8 := by
            have hlp := congrArg List.length hpnil
            simp only [List.length_drop, hwlen, List.length_nil] at hlp
            omega
          rw [if_pos hp0]
          rw [show (([[]] : List (List Char)) ++ [] :: [[]]) = [[], [], []]
            from rfl]
          rw [parse6Tokens_allzero]
          conv_rhs => rw [hdec]
          rw [hbnil, hpnil, hl8]
          rfl
        · rw [if_neg hp0]
          have hshape : (([[]] : List (List Char)) ++ [] ::
              ((wordsOf ip).drop (0 + l)).map hexChars) =
              [] :: [] :: ((wordsOf ip).drop (0 + l)).map hexChars := rfl
          rw [hshape]
          rw [parse6Tokens_leading _ _ (map_hexChars_all_nonempty _) hp0
            (parseGroupsV4Tail_map _
              (fun w hw => hwlt w (List.mem_of_mem_drop hw)))
            (by
              simp only [List.length_drop, hwlen]
              omega)]
          have hldrop : ((wordsOf ip).drop (0 + l)).length = 8 - l := by
            simp [hwlen]
          rw [hldrop, show 8 - (8 - l) = l from by omega]
          conv_rhs => rw [hdec]
          rw [hbnil]
          simp
      · rw [if_neg hb0]
        by_cases hp0 : ((wordsOf ip).drop (b + l)).map hexChars = []
        · -- trailing "::"
          have hpnil : (wordsOf ip).drop (b + l) = [] :=
            List.map_eq_nil_iff.1 hp0
          have hb8 : 8 ≤ b + l := by
            have hlp := congrArg List.length hpnil
            simp only [List.length_drop, hwlen, List.length_nil] at hlp
            omega
          rw [if_pos hp0]
          rw [parse6Tokens_trailing _ _ (map_hexChars_all_nonempty _) hb0
            (parseHexGroups_map _
              (fun w hw => hwlt w (List.mem_of_mem_take hw)))
            (by
              simp only [List.length_take, hwlen]
              omega)]
          have hltake : ((wordsOf ip).take b).length = b := by
            rw [List.length_take, hwlen]
            omega
          rw [hltake, show 8 - b = l from by omega]
          conv_rhs => rw [hdec]
          rw [hpnil]
          simp
        · rw [if_neg hp0]
          have hshape : (((wordsOf ip).take b).map hexChars ++ [] ::
              ((wordsOf ip).drop (b + l)).map hexChars) =
              ((wordsOf ip).take b).map hexChars ++ [[]]
                ++ ((wordsOf ip).drop (b + l)).map hexChars := by
            rw [List.append_assoc]
            rfl
          rw [hshape]
          rw [parse6Tokens_middle _ _ _ _ (map_hexChars_all_nonempty _) hb0
            (map_hexChars_all_nonempty _) hp0
            (parseHexGroups_map _
              (fun w hw => hwlt w (List.mem_of_mem_take hw)))
            (parseGroupsV4Tail_map _
              (fun w hw => hwlt w (List.mem_of_mem_drop hw)))
            (by
              simp only [List.length_take, List.length_drop, hwlen]
              omega)]
          have hltake : ((wordsOf ip).take b).length = b := by
            rw [List.length_take, hwlen]
            omega
          have hldrop : ((wordsOf ip).drop (b + l)).length = 8 - (b + l) := by
            simp [hwlen]
          rw [hltake, hldrop, show 8 - b - (8 - (b + l)) = l from by omega]
          conv_rhs => rw [hdec]

/-! ## Lemmas: character classes of the formatter output -/

theorem slash_not_mem_map_hexChars {t : List Char} {ws : List Nat}
    (ht : t ∈ ws.map hexChars) : '/' ∉ t := by
  simp only [List.mem_map] at ht
  obtain ⟨w, _, rfl⟩ := ht
  exact slash_not_mem_hexChars w

theorem slash_not_mem_format6 (ip : Nat) : '/' ∉ format6 ip := by
  intro h
  unfold format6 at h
  cases hbr : bestRun (wordsOf ip) with
  | none =>
    simp only [hbr] at h
    rcases mem_joinWith h with h | ⟨t, ht, hm⟩
    · exact absurd h (by decide)
    · exact slash_not_mem_map_hexChars ht hm
  | some bl =>
    obtain ⟨b, l⟩ := bl
    simp only [hbr] at h
    by_cases hsp : b = 0 ∧ (l = 6 ∨ l = 5 ∧ (wordsOf ip).getD 5 0 = 65535)
    · rw [if_pos hsp] at h
      rcases List.mem_cons.1 h with h | h
      · exact absurd h (by decide)
      rcases List.mem_cons.1 h with h | h
      · exact absurd h (by decide)
      rcases mem_joinWith h with h | ⟨t, ht, hm⟩
      · exact absurd h (by decide)
      · rcases List.mem_append.1 ht with ht | ht
        · exact slash_not_mem_map_hexChars ht hm
        · simp only [List.mem_singleton] at ht
          subst ht
          exact slash_not_mem_v4Chars _ hm
    · rw [if_neg hsp] at h
      rcases List.mem_append.1 h with h | h
      · rcases mem_joinWith h with h | ⟨t, ht, hm⟩
        · exact absurd h (by decide)
        · exact slash_not_mem_map_hexChars ht hm
      · rcases List.mem_cons.1 h with h | h
        · exact absurd h (by decide)
        rcases List.mem_cons.1 h with h | h
        · exact absurd h (by decide)
        rcases mem_joinWith h with h | ⟨t, ht, hm⟩
        · exact absurd h (by decide)
        · exact slash_not_mem_map_hexChars ht hm

theorem colon_mem_joinWith_two (c : Char) (t u : List Char)
    (ts : List (List Char)) : c ∈ joinWith c (t :: u :: ts) := by
  rw [joinWith_eq_cons c t (u :: ts) (by simp)]
  exact List.mem_append.2 (Or.inr (List.mem_cons_self _ _))

theorem colon_mem_format6 (ip : Nat) : ':' ∈ format6 ip := by
  unfold format6
  cases hbr : bestRun (wordsOf ip) with
  | none =>
    simp only [hbr]
    exact colon_mem_joinWith_two ':' _ _ _
  | some bl =>
    obtain ⟨b, l⟩ := bl
    simp only [hbr]
    by_cases hsp : b = 0 ∧ (l = 6 ∨ l = 5 ∧ (wordsOf ip).getD 5 0 = 65535)
    · rw [if_pos hsp]
      exact List.mem_cons_self _ _
    · rw [if_neg hsp]
      exact List.mem_append.2 (Or.inr (List.mem_cons_self _ _))

/-! ## Lemmas: the cast's per-row round trip -/

theorem tryCreateNetwork_split (a bs : List Char) (hna : '/' ∉ a)
    (hnb : '/' ∉ bs) :
    tryCreateNetwork (a ++ '/' :: bs) =
      (match follyTryFromString a with
       | none => .error .INVALID_IP
       | some subnet =>
         match parseUInt8 bs with
         | none => .error .INVALID_CIDR
         | some cidr =>
           if bitCount subnet < cidr then .error .CIDR_MISMATCH
           else .ok (subnet, cidr)) := by
  unfold tryCreateNetwork
  rw [splitOnChar_append, splitOnChar_of_not_mem hna,
    splitOnChar_of_not_mem hnb]
  rfl

theorem follyTryFromString_v4Chars (v : Nat) (hv : v < 2 ^ 32) :
    follyTryFromString (v4Chars v) = some (.v4 v) := by
  unfold follyTryFromString
  rw [contains_eq_false (colon_not_mem_v4Chars v),
    contains_of_mem (dot_mem_v4Chars v)]
  simp [parseV4_v4Chars v hv]

theorem follyTryFromString_format6 (ip : Nat) (hip : ip < 2 ^ 128)
    (hm : isMapped128 ip = false) :
    follyTryFromString (format6 ip) = some (.v6 ip) := by
  unfold follyTryFromString
  rw [contains_of_mem (colon_mem_format6 ip)]
  simp [parse6_format6 ip hip hm, valOfWords_wordsOf ip hip]

theorem castFromStringRow_mapped (ip p : Nat)
    (hm : isMapped128 ip = true) (hp : p ≤ 32)
    (hcan : ip % 2 ^ (32 - p) = 0) :
    castFromStringRow false (v4Chars (ip % 2 ^ 32) ++ '/' :: decChars p) =
      .ok (ip, p) := by
  have hlo : ip % 2 ^ 32 < 2 ^ 32 := Nat.mod_lt _ (by norm_num)
  have hcontains :
      (v4Chars (ip % 2 ^ 32) ++ '/' :: decChars p).contains '/' = true :=
    contains_of_mem (List.mem_append.2 (Or.inr (List.mem_cons_self _ _)))
  unfold castFromStringRow
  rw [hcontains]
  rw [if_neg (by simp)]
  rw [tryCreateNetwork_split _ _ (slash_not_mem_v4Chars _)
    (slash_not_mem_decChars _)]
  rw [follyTryFromString_v4Chars _ hlo,
    parseUInt8_decChars p (by omega)]
  have hnp : ¬(32 < p) := by omega
  have hmaskip : toMapped (follyMaskV4 (v4PartF (FollyIP.v4 (ip % 2 ^ 32))) p)
      = ip := by
    have hvp : v4PartF (FollyIP.v4 (ip % 2 ^ 32)) = ip % 2 ^ 32 := rfl
    rw [hvp]
    unfold toMapped follyMaskV4
    have hdvd : (2 : Nat) ^ (32 - p) ∣ 2 ^ 32 := pow_dvd_pow 2 (by omega)
    rw [Nat.mod_mod_of_dvd ip hdvd, hcan]
    have hdm : ip / 2 ^ 32 = 65535 := by
      simpa [isMapped128] using hm
    omega
  simpa [isMappedF, isV4F, bitCount, hnp] using hmaskip

theorem castFromStringRow_v6 (ip p : Nat) (hip : ip < 2 ^ 128)
    (hm : isMapped128 ip = false) (hp : p ≤ 128)
    (hcan : ip % 2 ^ (128 - p) = 0) :
    castFromStringRow false (format6 ip ++ '/' :: decChars p) =
      .ok (ip, p) := by
  have hcontains : (format6 ip ++ '/' :: decChars p).contains '/' = true :=
    contains_of_mem (List.mem_append.2 (Or.inr (List.mem_cons_self _ _)))
  unfold castFromStringRow
  rw [hcontains]
  rw [if_neg (by simp)]
  rw [tryCreateNetwork_split _ _ (slash_not_mem_format6 _)
    (slash_not_mem_decChars _)]
  rw [follyTryFromString_format6 ip hip hm,
    parseUInt8_decChars p (by omega)]
  have hnp : ¬(128 < p) := by omega
  have hmaskip : follyMaskV6 (v6Value (FollyIP.v6 ip)) p = ip := by
    have hv6 : v6Value (FollyIP.v6 ip) = ip := rfl
    unfold follyMaskV6
    rw [hv6, hcan]
    omega
  simpa [isMappedF, isV4F, bitCount, hm, hnp] using hmaskip

/-! ## Lemmas: bit arithmetic for the subnet functions -/

theorem testBit_mul_pow_add (q r k i : Nat) (hr : r < 2 ^ k) :
    (q * 2 ^ k + r).testBit i =
      if i < k then r.testBit i else q.testBit (i - k) := by
  rcases Nat.lt_or_ge i k with hik | hik
  · rw [if_pos hik, Nat.testBit_to_div_mod, Nat.testBit_to_div_mod]
    have e1 : (2 : Nat) ^ k = 2 ^ (k - i) * 2 ^ i := by
      rw [← pow_add]
      congr 1
      omega
    have hd : (q * 2 ^ k + r) / 2 ^ i = r / 2 ^ i + q * 2 ^ (k - i) := by
      rw [e1, ← Nat.mul_assoc, Nat.add_comm,
        Nat.add_mul_div_right _ _ (Nat.pos_pow_of_pos i (by norm_num))]
    rw [hd]
    have e2 : (2 : Nat) ^ (k - i) = 2 * 2 ^ (k - i - 1) := by
      rw [← pow_succ']
      congr 1
      omega
    rw [e2]
    congr 1
    have hq2 : q * (2 * 2 ^ (k - i - 1)) = 2 * (q * 2 ^ (k - i - 1)) := by
      ring
    have hmod : (r / 2 ^ i + q * (2 * 2 ^ (k - i - 1))) % 2 = r / 2 ^ i % 2 := by
      rw [hq2]
      omega
    rw [hmod]
  · rw [if_neg (by omega), Nat.testBit_to_div_mod, Nat.testBit_to_div_mod]
    have e1 : (2 : Nat) ^ i = 2 ^ k * 2 ^ (i - k) := by
      rw [← pow_add]
      congr 1
      omega
    have hd : (q * 2 ^ k + r) / 2 ^ i = q / 2 ^ (i - k) := by
      rw [e1, ← Nat.div_div_eq_div_mul]
      congr 1
      rw [Nat.add_comm, Nat.add_mul_div_right _ _
        (Nat.pos_pow_of_pos k (by norm_num)),
        Nat.div_eq_of_lt hr, Nat.zero_add]
    rw [hd]

theorem or_low_ones (x k : Nat) :
    x ||| (2 ^ k - 1) = x / 2 ^ k * 2 ^ k + (2 ^ k - 1) := by
  apply Nat.eq_of_testBit_eq
  intro i
  rw [Nat.testBit_or, Nat.testBit_two_pow_sub_one,
    testBit_mul_pow_add _ _ _ _ (by
      have := Nat.pos_pow_of_pos k (show 0 < 2 by norm_num)
      omega)]
  rcases Nat.lt_or_ge i k with hik | hik
  · rw [if_pos hik]
    simp [hik, Nat.testBit_two_pow_sub_one]
  · rw [if_neg (by omega)]
    have hx : x.testBit i = (x / 2 ^ k).testBit (i - k) := by
      rw [← Nat.shiftRight_eq_div_pow, Nat.testBit_shiftRight]
      congr 1
      omega
    simp [hx, (by omega : ¬i < k)]
    exact fun hcon => absurd hcon (by omega)

theorem or_all_ones (x n : Nat) (h : x < 2 ^ n) :
    x ||| (2 ^ n - 1) = 2 ^ n - 1 := by
  rw [or_low_ones, Nat.div_eq_of_lt h]
  simp

theorem and_compl_mask (x k : Nat) (hx : x < 2 ^ 128) (hk : k ≤ 128) :
    x &&& (((1 <<< k) - 1) ^^^ (2 ^ 128 - 1)) = x - x % 2 ^ k := by
  rw [Nat.one_shiftLeft]
  have hsub : x - x % 2 ^ k = x / 2 ^ k * 2 ^ k := by
    have h2 := Nat.div_add_mod x (2 ^ k)
    have h3 : x / 2 ^ k * 2 ^ k = 2 ^ k * (x / 2 ^ k) := Nat.mul_comm ..
    omega
  rw [hsub]
  apply Nat.eq_of_testBit_eq
  intro i
  conv_rhs => rw [← Nat.add_zero (x / 2 ^ k * 2 ^ k)]
  rw [Nat.testBit_and, Nat.testBit_xor, Nat.testBit_two_pow_sub_one,
    Nat.testBit_two_pow_sub_one,
    testBit_mul_pow_add _ _ _ _ (show (0 : Nat) < 2 ^ k from
      Nat.pos_pow_of_pos k (by norm_num))]
  rcases Nat.lt_or_ge i k with hik | hik
  · rw [if_pos hik]
    simp [hik, (by omega : i < 128), Nat.zero_testBit]
  · rw [if_neg (by omega)]
    rcases Nat.lt_or_ge i 128 with hi128 | hi128
    · have hx : x.testBit i = (x / 2 ^ k).testBit (i - k) := by
        rw [← Nat.shiftRight_eq_div_pow, Nat.testBit_shiftRight]
        congr 1
        omega
      simp [hx, (by omega : ¬i < k), hi128]
      exact fun _ => hik
    · have hx : x.testBit i = false :=
        Nat.testBit_lt_two_pow (Nat.lt_of_lt_of_le hx
          (Nat.pow_le_pow_right (by norm_num) hi128))
      have hq : (x / 2 ^ k).testBit (i - k) = false := by
        rw [← Nat.shiftRight_eq_div_pow, Nat.testBit_shiftRight,
          show k + (i - k) = i from by omega]
        exact hx
      simp [hx, hq, (by omega : ¬i < k), (by omega : ¬i < 128)]

theorem isIPV4_eq_isMapped128 (ip : Nat) (h : ip < 2 ^ 128) :
    isIPV4 ip = isMapped128 ip := by
  unfold isIPV4 isMapped128
  have hmask : ((0xFFFFFFFFFFFFFFFF : Nat) <<< 64) ||| 0xFFFFFFFF00000000 =
      ((1 <<< 32) - 1) ^^^ (2 ^ 128 - 1) := by decide
  rw [hmask, and_compl_mask ip 32 h (by norm_num)]
  have hdm := Nat.div_add_mod ip (2 ^ 32)
  by_cases hd : ip / 2 ^ 32 = 65535
  · have h1 : ip - ip % 2 ^ 32 = 0x0000FFFF00000000 := by omega
    rw [h1, hd]
    decide
  · have e1 : (ip - ip % 2 ^ 32 == 0x0000FFFF00000000) = false := by
      simp only [beq_eq_false_iff_ne, ne_eq]
      omega
    have e2 : (ip / 2 ^ 32 == 65535) = false := by
      simp only [beq_eq_false_iff_ne, ne_eq]
      omega
    rw [e1, e2]

/-! ## Lemmas: bounds on parser outputs -/

theorem parseOctet_le {t : List Char} {v : Nat} (h : parseOctet t = some v) :
    v ≤ 255 := by
  unfold parseOctet at h
  split at h
  · split at h
    · injection h with h
      omega
    · exact absurd h (by simp)
  · exact absurd h (by simp)

theorem parseV4_lt {s : List Char} {v : Nat} (h : parseV4 s = some v) :
    v < 2 ^ 32 := by
  unfold parseV4 at h
  split at h
  · rename_i a b c d heq
    cases ha : parseOctet a with
    | none => rw [ha] at h; simp at h
    | some x =>
      cases hb : parseOctet b with
      | none => rw [ha, hb] at h; simp at h
      | some y =>
        cases hc : parseOctet c with
        | none => rw [ha, hb, hc] at h; simp at h
        | some z =>
          cases hd : parseOctet d with
          | none => rw [ha, hb, hc, hd] at h; simp at h
          | some w =>
            rw [ha, hb, hc, hd] at h
            simp only [Option.some.injEq] at h
            have h1 := parseOctet_le ha
            have h2 := parseOctet_le hb
            have h3 := parseOctet_le hc
            have h4 := parseOctet_le hd
            omega
  · exact absurd h (by simp)

theorem parseHex_le {t : List Char} {w : Nat} (h : parseHex t = some w) :
    w ≤ 65535 := by
  unfold parseHex at h
  split at h
  · split at h
    · injection h with h
      omega
    · exact absurd h (by simp)
  · exact absurd h (by simp)

theorem parseGroupsV4Tail_bounds :
    ∀ {ts : List (List Char)} {ws : List Nat},
      parseGroupsV4Tail ts = some ws → ∀ w ∈ ws, w ≤ 65535 := by
  intro ts
  induction ts with
  | nil =>
    intro ws h w hw
    simp only [parseGroupsV4Tail, Option.some.injEq] at h
    subst h
    simp at hw
  | cons t rest ih =>
    intro ws h w hw
    cases rest with
    | nil =>
      simp only [parseGroupsV4Tail] at h
      split at h
      · cases hv : parseV4 t with
        | none => rw [hv] at h; simp at h
        | some v =>
          rw [hv] at h
          simp only [Option.some.injEq] at h
          subst h
          have hlt := parseV4_lt hv
          simp only [List.mem_cons, List.mem_singleton] at hw
          rcases hw with hw | hw | hw
          · subst hw; omega
          · subst hw
            have := Nat.mod_lt v (show 0 < 65536 by norm_num)
            omega
          · simp at hw
      · cases hx : parseHex t with
        | none => rw [hx] at h; simp at h
        | some x =>
          rw [hx] at h
          simp only [Option.some.injEq] at h
          subst h
          simp only [List.mem_singleton] at hw
          subst hw
          exact parseHex_le hx
    | cons u us =>
      rw [show parseGroupsV4Tail (t :: u :: us) =
        (match parseHex t, parseGroupsV4Tail (u :: us) with
         | some w, some ws => some (w :: ws)
         | _, _ => none) from rfl] at h
      cases hx : parseHex t with
      | none => rw [hx] at h; simp at h
      | some x =>
        cases hrest : parseGroupsV4Tail (u :: us) with
        | none => rw [hx, hrest] at h; simp at h
        | some xs =>
          rw [hx, hrest] at h
          simp only [Option.some.injEq] at h
          subst h
          rcases List.mem_cons.1 hw with hw | hw
          · subst hw; exact parseHex_le hx
          · exact ih hrest w hw

theorem parseHexGroups_bounds :
    ∀ {ts : List (List Char)} {ws : List Nat},
      parseHexGroups ts = some ws → ∀ w ∈ ws, w ≤ 65535 := by
  intro ts
  induction ts with
  | nil =>
    intro ws h w hw
    simp only [parseHexGroups, Option.some.injEq] at h
    subst h
    simp at hw
  | cons t rest ih =>
    intro ws h w hw
    simp only [parseHexGroups] at h
    cases hx : parseHex t with
    | none => rw [hx] at h; simp at h
    | some x =>
      cases hrest : parseHexGroups rest with
      | none => rw [hx, hrest] at h; simp at h
      | some xs =>
        rw [hx, hrest] at h
        simp only [Option.some.injEq] at h
        subst h
        rcases List.mem_cons.1 hw with hw | hw
        · subst hw; exact parseHex_le hx
        · exact ih hrest w hw

theorem parse6Tokens_bounds {ts : List (List Char)} {ws : List Nat}
    (h : parse6Tokens ts = some ws) :
    ws.length = 8 ∧ ∀ w ∈ ws, w ≤ 65535 := by
  unfold parse6Tokens at h
  split at h
  · injection h with h
    subst h
    refine ⟨rfl, ?_⟩
    intro w hw
    have := List.eq_of_mem_replicate hw
    omega
  · split at h
    · split at h
      · rename_i hgv
        cases hg : parseGroupsV4Tail (ts.drop 2) with
        | none => rw [hg] at h; simp at h
        | some gs =>
          rw [hg] at h
          simp only [] at h
          split at h
          · injection h with h
            subst h
            constructor
            · simp only [List.length_append, List.length_replicate]
              omega
            · intro w hw
              rcases List.mem_append.1 hw with hw | hw
              · have := List.eq_of_mem_replicate hw
                omega
              · exact parseGroupsV4Tail_bounds hg w hw
          · simp at h
      · simp at h
    · split at h
      · split at h
        · cases hg : parseHexGroups (ts.take (ts.length - 2)) with
          | none => rw [hg] at h; simp at h
          | some gs =>
            rw [hg] at h
            simp only [] at h
            split at h
            · injection h with h
              subst h
              constructor
              · simp only [List.length_append, List.length_replicate]
                omega
              · intro w hw
                rcases List.mem_append.1 hw with hw | hw
                · exact parseHexGroups_bounds hg w hw
                · have := List.eq_of_mem_replicate hw
                  omega
            · simp at h
        · simp at h
      · split at h
        · cases hg : parseGroupsV4Tail ts with
          | none => rw [hg] at h; simp at h
          | some gs =>
            rw [hg] at h
            simp only [] at h
            split at h
            · injection h with h
              subst h
              rename_i hlen
              exact ⟨hlen, parseGroupsV4Tail_bounds hg⟩
            · simp at h
        · split at h
          · cases hg : parseHexGroups
                (ts.take (ts.findIdx fun t => t.isEmpty)) with
            | none => rw [hg] at h; simp at h
            | some pws =>
              cases hs : parseGroupsV4Tail
                  (ts.drop ((ts.findIdx fun t => t.isEmpty) + 1)) with
              | none => rw [hg, hs] at h; simp at h
              | some sws =>
                rw [hg, hs] at h
                simp only [] at h
                split at h
                · injection h with h
                  subst h
                  constructor
                  · simp only [List.length_append, List.length_replicate]
                    omega
                  · intro w hw
                    rcases List.mem_append.1 hw with hw | hw
                    · rcases List.mem_append.1 hw with hw | hw
                      · exact parseHexGroups_bounds hg w hw
                      · have := List.eq_of_mem_replicate hw
                        omega
                    · exact parseGroupsV4Tail_bounds hs w hw
                · simp at h
          · simp at h

theorem valOfWords_fold_lt : ∀ (ws : List Nat) (a : Nat),
    (∀ w ∈ ws, w ≤ 65535) →
    ws.foldl (fun a w => a * 65536 + w) a < (a + 1) * 65536 ^ ws.length := by
  intro ws
  induction ws with
  | nil =>
    intro a _
    simp
  | cons w ws ih =>
    intro a hb
    simp only [List.foldl_cons, List.length_cons]
    have h1 := ih (a * 65536 + w) (fun x hx => hb x (List.mem_cons_of_mem _ hx))
    have hw := hb w (List.mem_cons_self _ _)
    calc (ws.foldl (fun a w => a * 65536 + w) (a * 65536 + w))
        < (a * 65536 + w + 1) * 65536 ^ ws.length := h1
      _ ≤ ((a + 1) * 65536) * 65536 ^ ws.length := by
          apply Nat.mul_le_mul_right
          omega
      _ = (a + 1) * 65536 ^ (ws.length + 1) := by ring

theorem valOfWords_lt {ws : List Nat} (hlen : ws.length = 8)
    (hb : ∀ w ∈ ws, w ≤ 65535) : valOfWords ws < 2 ^ 128 := by
  have h := valOfWords_fold_lt ws 0 hb
  rw [hlen] at h
  unfold valOfWords
  calc ws.foldl (fun a w => a * 65536 + w) 0 < (0 + 1) * 65536 ^ 8 := h
    _ = 2 ^ 128 := by norm_num

theorem follyTryFromString_lt {s : List Char} {f : FollyIP}
    (h : follyTryFromString s = some f) :
    (match f with | .v4 n => n < 2 ^ 32 | .v6 n => n < 2 ^ 128) := by
  unfold follyTryFromString at h
  split at h
  · cases hp : parse6 s with
    | none => rw [hp] at h; simp at h
    | some ws =>
      rw [hp] at h
      simp only [Option.map_some', Option.some.injEq] at h
      subst h
      obtain ⟨hlen, hb⟩ := parse6Tokens_bounds hp
      exact valOfWords_lt hlen hb
  · split at h
    · cases hp : parseV4 s with
      | none => rw [hp] at h; simp at h
      | some v =>
        rw [hp] at h
        simp only [Option.map_some', Option.some.injEq] at h
        subst h
        exact parseV4_lt hp
    · simp at h

/-! ## Lemmas: the canonical-storage invariant of the produced values -/

theorem sub_mod_self_mod (n m : Nat) (hm : 0 < m) : (n - n % m) % m = 0 := by
  have h := Nat.div_add_mod n m
  have hrw : n - n % m = m * (n / m) := by omega
  rw [hrw, Nat.mul_mod_right]

theorem isMapped128_sub_mod (n j : Nat) (h : isMapped128 n = false) :
    isMapped128 (n - n % 2 ^ j) = false := by
  simp only [isMapped128, beq_eq_false_iff_ne, ne_eq] at h ⊢
  by_cases hj : j ≤ 32
  · have hdvd : (2 : Nat) ^ j ∣ 2 ^ 32 := pow_dvd_pow 2 hj
    have hmm : n % 2 ^ j = (n % 2 ^ 32) % 2 ^ j :=
      (Nat.mod_mod_of_dvd n hdvd).symm
    have hle : n % 2 ^ j ≤ n % 2 ^ 32 := by rw [hmm]; exact Nat.mod_le _ _
    have h32 := Nat.div_add_mod n (2 ^ 32)
    have hlt : n % 2 ^ 32 < 2 ^ 32 := Nat.mod_lt _ (by norm_num)
    have hrw : n - n % 2 ^ j
        = 2 ^ 32 * (n / 2 ^ 32) + (n % 2 ^ 32 - n % 2 ^ j) := by omega
    rw [hrw, Nat.mul_add_div (by norm_num : (0 : Nat) < 2 ^ 32)]
    have hz : (n % 2 ^ 32 - n % 2 ^ j) / 2 ^ 32 = 0 :=
      Nat.div_eq_of_lt (by omega)
    omega
  · push_neg at hj
    have hdm := Nat.div_add_mod n (2 ^ j)
    have hrw : n - n % 2 ^ j = 2 ^ j * (n / 2 ^ j) := by omega
    have hsplit : (2 : Nat) ^ j = 2 ^ 32 * 2 ^ (j - 32) := by
      rw [← pow_add]; congr 1; omega
    have hrw2 : n - n % 2 ^ j = 2 ^ 32 * (2 ^ (j - 32) * (n / 2 ^ j)) := by
      rw [hrw, hsplit]; ring
    rw [hrw2, Nat.mul_div_cancel_left _ (by norm_num : (0 : Nat) < 2 ^ 32)]
    have h2 : (2 : Nat) ^ (j - 32) = 2 * 2 ^ (j - 33) := by
      rw [← pow_succ']; congr 1; omega
    rw [h2, mul_assoc]
    omega

theorem isMapped128_toMapped (m : Nat) (h : m < 2 ^ 32) :
    isMapped128 (toMapped m) = true := by
  simp only [isMapped128, toMapped, beq_iff_eq]
  omega

theorem validIPPfx_mapped_path (v p : Nat) (hv : v < 2 ^ 32) (hp : p ≤ 32) :
    validIPPfx (toMapped (follyMaskV4 v p)) p = true := by
  have hmk : follyMaskV4 v p < 2 ^ 32 :=
    Nat.lt_of_le_of_lt (Nat.sub_le _ _) hv
  have hmap := isMapped128_toMapped (follyMaskV4 v p) hmk
  unfold validIPPfx
  rw [hmap, if_pos rfl]
  have hmod : toMapped (follyMaskV4 v p) % 2 ^ (32 - p) = 0 := by
    unfold toMapped
    have hm4 : follyMaskV4 v p % 2 ^ (32 - p) = 0 :=
      sub_mod_self_mod v (2 ^ (32 - p)) (Nat.pos_pow_of_pos _ (by norm_num))
    have hdvd : (2 : Nat) ^ (32 - p) ∣ 2 ^ 32 := pow_dvd_pow 2 (by omega)
    obtain ⟨c, hc⟩ := hdvd
    have hrw : 65535 * 2 ^ 32 + follyMaskV4 v p
        = 2 ^ (32 - p) * (65535 * c) + follyMaskV4 v p := by rw [hc]; ring
    rw [hrw, Nat.mul_add_mod, hm4]
  simp only [Bool.and_eq_true, decide_eq_true_eq]
  refine ⟨by unfold toMapped at *; omega, hp, hmod⟩

theorem validIPPfx_v6_path (n p : Nat) (hn : n < 2 ^ 128)
    (hm : isMapped128 n = false) (hp : p ≤ 128) :
    validIPPfx (follyMaskV6 n p) p = true := by
  have hmk : follyMaskV6 n p < 2 ^ 128 :=
    Nat.lt_of_le_of_lt (Nat.sub_le _ _) hn
  have hmap : isMapped128 (follyMaskV6 n p) = false :=
    isMapped128_sub_mod n (128 - p) hm
  unfold validIPPfx
  rw [hmap, if_neg (by simp : ¬(false = true))]
  simp only [Bool.and_eq_true, decide_eq_true_eq]
  refine ⟨hmk, hp, ?_⟩
  exact sub_mod_self_mod n (2 ^ (128 - p)) (Nat.pos_pow_of_pos _ (by norm_num))

theorem tryCreateNetwork_ok {s : List Char} {subnet : FollyIP} {cidr : Nat}
    (h : tryCreateNetwork s = .ok (subnet, cidr)) :
    follyTryFromString ((splitOnChar '/' s).getD 0 []) = some subnet ∧
      cidr ≤ bitCount subnet := by
  unfold tryCreateNetwork at h
  simp only [] at h
  split at h
  · exact absurd h (by simp)
  · split at h
    · cases hf : follyTryFromString ((splitOnChar '/' s).getD 0 []) with
      | none => rw [hf] at h; exact absurd h (by simp)
      | some sn =>
        rw [hf] at h
        simp only [] at h
        cases hu : parseUInt8 ((splitOnChar '/' s).getD 1 []) with
        | none => rw [hu] at h; exact absurd h (by simp)
        | some c =>
          rw [hu] at h
          simp only [] at h
          split at h
          · exact absurd h (by simp)
          · rename_i hbc
            simp only [Except.ok.injEq, Prod.mk.injEq] at h
            obtain ⟨h1, h2⟩ := h
            subst h1; subst h2
            exact ⟨rfl, by omega⟩
    · cases hf : follyTryFromString ((splitOnChar '/' s).getD 0 []) with
      | none => rw [hf] at h; exact absurd h (by simp)
      | some sn =>
        rw [hf] at h
        simp only [Except.ok.injEq, Prod.mk.injEq] at h
        obtain ⟨h1, h2⟩ := h
        subst h1; subst h2
        exact ⟨rfl, le_refl _⟩

theorem castFromStringRow_valid {skip : Bool} {s : List Char} {ip p : Nat}
    (h : castFromStringRow skip s = .ok (ip, p)) : validIPPfx ip p = true := by
  unfold castFromStringRow at h
  split at h
  · exact absurd h (by simp)
  · cases hn : tryCreateNetwork s with
    | error e => rw [hn] at h; exact absurd h (by simp)
    | ok net =>
      obtain ⟨subnet, cidr⟩ := net
      obtain ⟨hf, hbc⟩ := tryCreateNetwork_ok hn
      have hsb := follyTryFromString_lt hf
      rw [hn] at h
      simp only [] at h
      split at h
      · rename_i hfam
        split at h
        · exact absurd h (by simp)
        · rename_i hcb
          simp only [Except.ok.injEq, Prod.mk.injEq] at h
          obtain ⟨h1, h2⟩ := h
          subst h1; subst h2
          have hv4 : v4PartF subnet < 2 ^ 32 := by
            cases subnet with
            | v4 n => exact hsb
            | v6 n =>
              show n % 2 ^ 32 < 2 ^ 32
              exact Nat.mod_lt _ (by norm_num)
          exact validIPPfx_mapped_path _ _ hv4 (by omega)
      · rename_i hfam
        split at h
        · exact absurd h (by simp)
        · rename_i hcb
          simp only [Except.ok.injEq, Prod.mk.injEq] at h
          obtain ⟨h1, h2⟩ := h
          subst h1; subst h2
          cases subnet with
          | v4 n =>
            simp [isMappedF, isV4F] at hfam
          | v6 n =>
            have hmm : isMapped128 n = false := by
              simpa [isMappedF, isV4F] using hfam
            exact validIPPfx_v6_path n cidr hsb hmm (by omega)

theorem ipPrefixFn_valid {ip v q : Nat} {prefixBits : Int}
    (hip : ip < 2 ^ 128)
    (h : ipPrefixFn ip prefixBits = .ok (v, q)) : validIPPfx v q = true := by
  unfold ipPrefixFn at h
  simp only [] at h
  split at h
  · rename_i hm
    split at h
    · exact absurd h (by simp)
    · rename_i hcb
      simp only [Except.ok.injEq, Prod.mk.injEq] at h
      obtain ⟨h1, h2⟩ := h
      rw [← h1, ← h2]
      exact validIPPfx_mapped_path _ _ (Nat.mod_lt _ (by norm_num)) (by omega)
  · rename_i hm
    split at h
    · exact absurd h (by simp)
    · rename_i hcb
      simp only [Except.ok.injEq, Prod.mk.injEq] at h
      obtain ⟨h1, h2⟩ := h
      rw [← h1, ← h2]
      have hmm : isMapped128 ip = false := by
        cases hmi : isMapped128 ip with
        | true => exact absurd hmi hm
        | false => rfl
      exact validIPPfx_v6_path ip _ hip hmm (by omega)

theorem castFromStringRow_castToStringRow (ip p : Nat)
    (h : validIPPfx ip p = true) :
    castFromStringRow false (castToStringRow ip p) = .ok (ip, p) := by
  unfold validIPPfx at h
  simp only [Bool.and_eq_true, decide_eq_true_eq] at h
  obtain ⟨hip, hrest⟩ := h
  unfold castToStringRow
  by_cases hm : isMapped128 ip = true
  · rw [if_pos hm] at hrest ⊢
    simp only [Bool.and_eq_true, decide_eq_true_eq] at hrest
    exact castFromStringRow_mapped ip p hm hrest.1 hrest.2
  · have hm2 : isMapped128 ip = false := by
      cases hh : isMapped128 ip with
      | true => exact absurd hh hm
      | false => rfl
    rw [if_neg (by simp [hm2])] at hrest ⊢
    simp only [Bool.and_eq_true, decide_eq_true_eq] at hrest
    exact castFromStringRow_v6 ip p hip hm2 hrest.1 hrest.2

/-! ## Lemmas: the row-level error paths of `castFromString` -/

/-- folly's mask exception text never coincides with the cast's
prefix-bound row error text (they start with different characters). -/
theorem follyMaskErrMsg_ne_cidrBoundMsg (a b : Nat) (v : List Char)
    (bnd : Nat) : follyMaskErrMsg a b ≠ cidrBoundMsg v bnd := by
  intro h
  have h1 : (follyMaskErrMsg a b).head? = some 'n' := rfl
  have h2 : (cidrBoundMsg v bnd).head? = some 'C' := rfl
  rw [h, h2] at h1
  exact absurd h1 (by decide)

theorem castFromStringRow_noSlash (s : List Char) (h : '/' ∉ s) :
    castFromStringRow false s = .error (expectedFormatMsg s) := by
  unfold castFromStringRow
  rw [if_pos (contains_eq_false h)]
  rfl

theorem castFromStringRow_invalidIp (a bs : List Char)
    (hna : '/' ∉ a) (hnb : '/' ∉ bs) (hf : follyTryFromString a = none) :
    castFromStringRow false (a ++ '/' :: bs) = .error (invalidIpMsg a) := by
  have hvec : splitOnChar '/' (a ++ '/' :: bs) = [a, bs] := by
    rw [splitOnChar_append, splitOnChar_of_not_mem hna,
      splitOnChar_of_not_mem hnb]
    rfl
  have hcontains : (a ++ '/' :: bs).contains '/' = true :=
    contains_of_mem (List.mem_append.2 (Or.inr (List.mem_cons_self _ _)))
  unfold castFromStringRow
  rw [hcontains, if_neg (by simp)]
  rw [tryCreateNetwork_split a bs hna hnb, hf]
  simp only []
  unfold cidrErrorMsg
  rw [hvec]
  rfl

theorem castFromStringRow_invalidMask (a bs : List Char) (sn : FollyIP)
    (hna : '/' ∉ a) (hnb : '/' ∉ bs) (hf : follyTryFromString a = some sn)
    (hu : parseUInt8 bs = none) :
    castFromStringRow false (a ++ '/' :: bs) = .error (invalidMaskMsg bs) := by
  have hvec : splitOnChar '/' (a ++ '/' :: bs) = [a, bs] := by
    rw [splitOnChar_append, splitOnChar_of_not_mem hna,
      splitOnChar_of_not_mem hnb]
    rfl
  have hcontains : (a ++ '/' :: bs).contains '/' = true :=
    contains_of_mem (List.mem_append.2 (Or.inr (List.mem_cons_self _ _)))
  unfold castFromStringRow
  rw [hcontains, if_neg (by simp)]
  rw [tryCreateNetwork_split a bs hna hnb, hf]
  simp only []
  rw [hu]
  simp only []
  unfold cidrErrorMsg
  rw [hvec]
  rfl

theorem castFromStringRow_cidr_mismatch (a : List Char) (p : Nat)
    (sn : FollyIP) (hna : '/' ∉ a) (hf : follyTryFromString a = some sn)
    (hp : p ≤ 255) (hb : bitCount sn < p) :
    castFromStringRow false (a ++ '/' :: decChars p)
      = .error (cidrBoundMsg (decChars p) (bitCount sn)) := by
  have hvec : splitOnChar '/' (a ++ '/' :: decChars p) = [a, decChars p] := by
    rw [splitOnChar_append, splitOnChar_of_not_mem hna,
      splitOnChar_of_not_mem (slash_not_mem_decChars p)]
    rfl
  have hcontains : (a ++ '/' :: decChars p).contains '/' = true :=
    contains_of_mem (List.mem_append.2 (Or.inr (List.mem_cons_self _ _)))
  unfold castFromStringRow
  rw [hcontains, if_neg (by simp)]
  rw [tryCreateNetwork_split a _ hna (slash_not_mem_decChars p), hf,
    parseUInt8_decChars p hp]
  simp only []
  rw [if_pos hb]
  simp only []
  unfold cidrErrorMsg
  rw [hvec]
  simp only [List.getD_cons_zero, hf, List.length_cons, List.length_nil]
  rfl

theorem castFromStringRow_velox_bound32 (a : List Char) (n p : Nat)
    (hna : '/' ∉ a) (hf : follyTryFromString a = some (.v6 n))
    (hm : isMapped128 n = true) (h32 : 32 < p) (hp : p ≤ 128) :
    castFromStringRow false (a ++ '/' :: decChars p)
      = .error (cidrBoundMsg (decChars p) 32) := by
  have hcontains : (a ++ '/' :: decChars p).contains '/' = true :=
    contains_of_mem (List.mem_append.2 (Or.inr (List.mem_cons_self _ _)))
  unfold castFromStringRow
  rw [hcontains, if_neg (by simp)]
  rw [tryCreateNetwork_split a _ hna (slash_not_mem_decChars p), hf,
    parseUInt8_decChars p (by omega)]
  simp only []
  rw [if_neg (show ¬bitCount (FollyIP.v6 n) < p by
    simp only [bitCount]; omega)]
  simp only []
  rw [show (isMappedF (FollyIP.v6 n) || isV4F (FollyIP.v6 n)) = true by
    simp [isMappedF, isV4F, hm]]
  rw [if_pos rfl, if_pos h32]
  rfl

/-- Parsing an IPv4-mapped IPv6 literal `::ffff:a.b.c.d`. -/
theorem follyTryFromString_mapped (v : Nat) (hv : v < 2 ^ 32) :
    follyTryFromString ("::ffff:".data ++ v4Chars v)
      = some (.v6 (toMapped v)) := by
  have hts : splitOnChar ':' ("::ffff:".data ++ v4Chars v)
      = [] :: [] :: ["ffff".data, v4Chars v] := by
    show splitOnChar ':' (':' :: ':' :: ("ffff".data ++ ':' :: v4Chars v)) = _
    rw [splitOnChar_cons_sep, splitOnChar_cons_sep, splitOnChar_append,
      splitOnChar_of_not_mem (by decide),
      splitOnChar_of_not_mem (colon_not_mem_v4Chars v)]
    rfl
  have hall : (["ffff".data, v4Chars v] : List (List Char)).all
      (fun t => !t.isEmpty) = true := by
    cases hv4 : v4Chars v with
    | nil => exact absurd hv4 (v4Chars_ne_nil v)
    | cons c cs => rfl
  have hx : hexChars 65535 = "ffff".data := by
    norm_num [hexChars, baseChars, digitChar]
  have hpg : parseGroupsV4Tail ["ffff".data, v4Chars v]
      = some [65535, v / 65536, v % 65536] := by
    rw [show (["ffff".data, v4Chars v] : List (List Char))
        = [65535].map hexChars ++ [v4Chars v] by rw [List.map_cons]; rw [hx]; rfl]
    rw [parseGroupsV4Tail_map_v4 [65535] v (by simp) hv]
    rfl
  have hval : valOfWords (List.replicate 5 0 ++ [65535, v / 65536, v % 65536])
      = toMapped v := by
    unfold valOfWords toMapped
    simp only [List.replicate, List.cons_append, List.nil_append,
      List.foldl_cons, List.foldl_nil]
    omega
  unfold follyTryFromString
  rw [contains_of_mem (List.mem_append.2
    (Or.inl (show ':' ∈ "::ffff:".data by decide))), if_pos rfl]
  unfold parse6
  rw [hts, parse6Tokens_leading _ _ hall (by simp) hpg (by simp)]
  simp only [Option.map_some', List.length_cons, List.length_nil]
  rw [show (8 - 3 : Nat) = 5 by norm_num, hval]

theorem slash_not_mem_mapped_str (v : Nat) :
    '/' ∉ ("::ffff:".data ++ v4Chars v) := by
  intro h
  rcases List.mem_append.1 h with h | h
  · exact absurd h (by decide)
  · exact slash_not_mem_v4Chars v h

/-! ## Lemmas: the batch never stops at a failed row -/

theorem castFromString_fold_errs (skip : Bool) (inputs : List (List Char)) :
    ∀ (rows : List Nat) (st : BatchOut × Nat),
      ((rows.foldl (castFromStringStep skip inputs) st).1).errs
        = st.1.errs ++ rows.filterMap (fun row =>
            match castFromStringRow skip (inputs.getD row []) with
            | .error m => some (row, m)
            | .ok _ => none) := by
  intro rows
  induction rows with
  | nil => intro st; simp
  | cons r rest ih =>
    intro st
    rw [List.foldl_cons, ih, List.filterMap_cons]
    cases h : castFromStringRow skip (inputs.getD r []) with
    | ok val =>
      have hstep : (castFromStringStep skip inputs st r).1.errs
          = st.1.errs := by
        unfold castFromStringStep
        rw [h]
      rw [hstep]
    | error m =>
      have hstep : (castFromStringStep skip inputs st r).1.errs
          = st.1.errs ++ [(r, m)] := by
        unfold castFromStringStep
        rw [h]
      rw [hstep, List.append_assoc]
      rfl

theorem castFromStringBatch_errs (skip : Bool) (inputs : List (List Char))
    (rows : List Nat) :
    (castFromStringBatch skip inputs rows).errs
      = rows.filterMap (fun row =>
          match castFromStringRow skip (inputs.getD row []) with
          | .error m => some (row, m)
          | .ok _ => none) := by
  unfold castFromStringBatch
  rw [castFromString_fold_errs]
  rfl

/-! ## Lemmas: the registry model -/

theorem resolveFn_registerFn_self (r : List (FnSig × FnImpl)) (s : FnSig)
    (f : FnImpl) : resolveFn (registerFn r s f) s = some f := by
  induction r with
  | nil => simp [registerFn, resolveFn]
  | cons e rest ih =>
    by_cases he : e.1 = s
    · simp [registerFn, he, resolveFn]
    · simp [registerFn, he, resolveFn, ih]

theorem resolveFn_registerFn_ne (r : List (FnSig × FnImpl)) (s t : FnSig)
    (f : FnImpl) (h : t ≠ s) :
    resolveFn (registerFn r t f) s = resolveFn r s := by
  induction r with
  | nil => simp [registerFn, resolveFn, h]
  | cons e rest ih =>
    by_cases he : e.1 = t
    · simp [registerFn, he, resolveFn, h, ih]
    · simp [registerFn, he, resolveFn, ih]

theorem countSig_registerFn_self (r : List (FnSig × FnImpl)) (s : FnSig)
    (f : FnImpl) : countSig (registerFn r s f) s = max (countSig r s) 1 := by
  induction r with
  | nil => simp [registerFn, countSig]
  | cons e rest ih =>
    simp only [countSig] at ih ⊢
    by_cases he : e.1 = s
    · simp only [registerFn, if_pos he]
      simp [List.countP_cons, he]
    · have hbe : (e.1 == s) = false := by simp [he]
      simp only [registerFn, if_neg he]
      simp [List.countP_cons, hbe]
      omega

theorem countSig_registerFn_ne (r : List (FnSig × FnImpl)) (s t : FnSig)
    (f : FnImpl) (h : t ≠ s) :
    countSig (registerFn r t f) s = countSig r s := by
  induction r with
  | nil =>
    have hbe : (t == s) = false := by simp [h]
    simp [registerFn, countSig, hbe]
  | cons e rest ih =>
    simp only [countSig] at ih ⊢
    by_cases he : e.1 = t
    · have hbe : (t == s) = false := by simp [h]
      have hbe2 : (e.1 == s) = false := by simp [he, h]
      simp only [registerFn, if_pos he]
      simp [List.countP_cons, hbe, hbe2]
    · simp only [registerFn, if_neg he]
      simp [List.countP_cons, ih]

/-! ## The claims -/

/-- Claim C1: formatting a valid canonical IPPrefix value to its string
form and parsing that string back yields the identical value; in
particular "10.0.0.0/8" parses to the IPv4-mapped canonical value
(0xffff0a000000 · 2^32-style embedding) and formats back to
"10.0.0.0/8", not an IPv6 literal. -/
theorem c1_string_roundtrip (ip p : Nat) (h : validIPPfx ip p = true) :
    castFromStringRow false (castToStringRow ip p) = .ok (ip, p) ∧
    castFromStringRow false ("10.0.0.0/8".data) = .ok (281470849515520, 8) ∧
    isMapped128 281470849515520 = true ∧
    castToStringRow 281470849515520 8 = "10.0.0.0/8".data := by
  refine ⟨castFromStringRow_castToStringRow ip p h, by decide, by decide, ?_⟩
  norm_num [castToStringRow, isMapped128, v4Chars, decChars, baseChars,
    digitChar]

theorem c1_string_roundtrip_witness :
    validIPPfx 281470849515520 8 = true ∧
    castFromStringRow false (castToStringRow 281470849515520 8)
      = .ok (281470849515520, 8) :=
  ⟨by decide, (c1_string_roundtrip 281470849515520 8 (by decide)).1⟩

/-- Claim C2: in the batch cast a successful row is NOT written at that
row's own position.  With active rows [0, 1] where row 0 fails and row 1
converts successfully, the source's `rowIndex` counter places row 1's
value at position 0 of the freshly allocated columns (which then replace
the result wholesale), leaving row 1's own position null. -/
theorem c2_rowIndex_compaction :
    castFromStringRow false ("10.0.0.0/8".data) = .ok (281470849515520, 8) ∧
    castFromStringBatch false ["bogus/8".data, "10.0.0.0/8".data] [0, 1]
      = ⟨[some 281470849515520, none], [some 8, none],
         [(0, invalidIpMsg ("bogus".data))]⟩ :=
  ⟨by decide, by decide⟩

/-- Claim C3: every IPPrefix value produced by the string-parse cast or
by the ip_prefix scalar function satisfies the canonical-storage
invariant (`validIPPfx`): bits beyond the prefix length zero, IPv4
addresses stored as IPv4-mapped IPv6, prefix within the family width. -/
theorem c3_canonical_invariant (skip : Bool) (s : List Char)
    (ip p ip0 v q : Nat) (pb : Int) :
    (castFromStringRow skip s = .ok (ip, p) → validIPPfx ip p = true) ∧
    (ip0 < 2 ^ 128 → ipPrefixFn ip0 pb = .ok (v, q) →
      validIPPfx v q = true) :=
  ⟨fun h => castFromStringRow_valid h, fun h0 h => ipPrefixFn_valid h0 h⟩

theorem c3_canonical_invariant_witness :
    castFromStringRow false ("10.0.0.0/8".data) = .ok (281470849515520, 8) ∧
    validIPPfx 281470849515520 8 = true ∧
    ipPrefixFn 0 8 = .ok (0, 8) ∧ validIPPfx 0 8 = true :=
  ⟨by decide,
   (c3_canonical_invariant false ("10.0.0.0/8".data)
      281470849515520 8 0 0 8 8).1 (by decide),
   by decide,
   (c3_canonical_invariant false ("10.0.0.0/8".data)
      281470849515520 8 0 0 8 8).2 (by decide) (by decide)⟩

/-- Claim C4: `subnetMax` is the stored ip with all bits beyond the
prefix length set to one (uniformly, the explicit all-ones special case
for prefix 0 on a non-IPv4 address included); prefix 0 yields the
all-ones value of the family width, and the full-width prefixes (32
mapped, 128 otherwise) collapse the range to `subnetMin = subnetMax`. -/
theorem c4_subnet_max_bits (ip p : Nat) (h : validIPPfx ip p = true) :
    getIPSubnetMax ip p
        = ip ||| (2 ^ ((if isMapped128 ip then 32 else 128) - p) - 1) ∧
      (p = 0 → getIPSubnetMax ip p
        = if isMapped128 ip then toMapped (2 ^ 32 - 1) else 2 ^ 128 - 1) ∧
      (isMapped128 ip = true → p = 32 →
        getIPSubnetMax ip p = ipSubnetMin ip p) ∧
      (isMapped128 ip = false → p = 128 →
        getIPSubnetMax ip p = ipSubnetMin ip p) := by
  unfold validIPPfx at h
  simp only [Bool.and_eq_true, decide_eq_true_eq] at h
  obtain ⟨hip, hrest⟩ := h
  have hiso := isIPV4_eq_isMapped128 ip hip
  by_cases hm : isMapped128 ip = true
  · rw [if_pos hm] at hrest
    simp only [Bool.and_eq_true, decide_eq_true_eq] at hrest
    obtain ⟨hp32, hcan⟩ := hrest
    have hdm : ip / 2 ^ 32 = 65535 := by simpa [isMapped128] using hm
    refine ⟨?_, ?_, ?_, ?_⟩
    · simp only [getIPSubnetMax, hiso, hm, Nat.one_shiftLeft]
      simp
    · intro hp0
      subst hp0
      simp only [getIPSubnetMax, hiso, hm, Nat.one_shiftLeft,
        eq_self_iff_true, if_true, Nat.sub_zero]
      rw [or_low_ones]
      unfold toMapped
      omega
    · intro _ hp32'
      subst hp32'
      simp only [getIPSubnetMax, ipSubnetMin, hiso, hm, Nat.one_shiftLeft]
      simp
    · intro hmf _
      rw [hm] at hmf
      exact absurd hmf (by decide)
  · have hmf : isMapped128 ip = false := by
      cases hmi : isMapped128 ip with
      | true => exact absurd hmi hm
      | false => rfl
    rw [if_neg (by simp [hmf])] at hrest
    simp only [Bool.and_eq_true, decide_eq_true_eq] at hrest
    obtain ⟨hp128, hcan⟩ := hrest
    refine ⟨?_, ?_, ?_, ?_⟩
    · simp only [getIPSubnetMax, hiso, hmf, Nat.one_shiftLeft]
      by_cases hp0 : p = 0
      · subst hp0
        simp only [Nat.sub_zero, if_pos rfl]
        simp only [Bool.false_eq_true, if_false]
        exact (or_all_ones ip 128 hip).symm
      · simp only [Bool.false_eq_true, if_false, if_neg hp0]
    · intro hp0
      subst hp0
      simp only [getIPSubnetMax, hiso, hmf]
      simp
    · intro hmt _
      rw [hmf] at hmt
      exact absurd hmt (by decide)
    · intro _ hp128'
      subst hp128'
      simp only [getIPSubnetMax, ipSubnetMin, hiso, hmf, Nat.one_shiftLeft]
      simp

theorem c4_subnet_max_bits_witness :
    validIPPfx 281470849515520 8 = true ∧
    getIPSubnetMax 281470849515520 8
      = 281470849515520 |||
          (2 ^ ((if isMapped128 281470849515520 then 32 else 128) - 8) - 1) :=
  ⟨by decide, (c4_subnet_max_bits 281470849515520 8 (by decide)).1⟩

/-- Claim C5: `isSubnetOf(prefix, address)` is true exactly when masking
the candidate address to the prefix's length (within the prefix's family
width) yields the stored ip, and `isSubnetOf(prefix, prefix)` is the
address form on the inner ip conjoined with the inner prefix being at
least as long. -/
theorem c5_isSubnetOf_spec (pIp pLen cand qIp qLen : Nat)
    (hp : pIp < 2 ^ 128) (hc : cand < 2 ^ 128) (hq : qIp < 2 ^ 128) :
    (isSubnetOfAddr pIp pLen cand = true ↔ maskToLen pIp pLen cand = pIp) ∧
    (isSubnetOfPfx pIp pLen qIp qLen = true ↔
      isSubnetOfAddr pIp pLen qIp = true ∧ pLen ≤ qLen) := by
  constructor
  · unfold isSubnetOfAddr maskToLen
    simp only []
    rw [isIPV4_eq_isMapped128 pIp hp]
    by_cases hm : isMapped128 pIp = true
    · rw [hm]
      simp only [reduceIte]
      rw [and_compl_mask cand (32 - pLen) hc (by omega), beq_iff_eq]
      exact eq_comm
    · have hmf : isMapped128 pIp = false := by
        cases hmi : isMapped128 pIp with
        | true => exact absurd hmi hm
        | false => rfl
      rw [hmf]
      simp only [Bool.false_eq_true, if_false]
      by_cases hp0 : pLen = 0
      · subst hp0
        simp only [eq_self_iff_true, if_true, Nat.sub_zero]
        rw [beq_iff_eq, Nat.mod_eq_of_lt hc]
        constructor
        · omega
        · omega
      · rw [if_neg hp0, and_compl_mask cand (128 - pLen) hc (by omega),
          beq_iff_eq]
        exact eq_comm
  · unfold isSubnetOfPfx
    simp [Bool.and_eq_true, decide_eq_true_eq]

theorem c5_isSubnetOf_spec_witness :
    isSubnetOfAddr 281470849515520 8 281470849581571 = true ∧
    (isSubnetOfAddr 281470849515520 8 281470849581571 = true ↔
      maskToLen 281470849515520 8 281470849581571 = 281470849515520) ∧
    isSubnetOfPfx 281470849515520 16 281470849515520 8 = false :=
  ⟨by decide,
   (c5_isSubnetOf_spec 281470849515520 8 281470849581571 0 0
      (by decide) (by decide) (by decide)).1,
   by decide⟩

/-- Claim C6 (corrected): a prefix above the applicable bound is a
row-level error citing the supplied value and a bound — 32 for an IPv4
literal (33..255) and for an IPv4-mapped IPv6 literal up to 128; but for
any IPv6 literal (IPv4-mapped included) with prefix 129..255 the bound
cited is 128, because folly's CIDR check runs before the cast's own
IPv4-mapped 32-bound check. -/
theorem c6_prefix_bound_corrected :
    (∀ v p, v < 2 ^ 32 → 32 < p → p ≤ 255 →
      castFromStringRow false (v4Chars v ++ '/' :: decChars p)
        = .error (cidrBoundMsg (decChars p) 32)) ∧
    (∀ v p, v < 2 ^ 32 → 32 < p → p ≤ 128 →
      castFromStringRow false
          (("::ffff:".data ++ v4Chars v) ++ '/' :: decChars p)
        = .error (cidrBoundMsg (decChars p) 32)) ∧
    (∀ v p, v < 2 ^ 32 → 128 < p → p ≤ 255 →
      castFromStringRow false
          (("::ffff:".data ++ v4Chars v) ++ '/' :: decChars p)
        = .error (cidrBoundMsg (decChars p) 128)) ∧
    (∀ ip p, ip < 2 ^ 128 → isMapped128 ip = false → 128 < p → p ≤ 255 →
      castFromStringRow false (format6 ip ++ '/' :: decChars p)
        = .error (cidrBoundMsg (decChars p) 128)) := by
  refine ⟨?_, ?_, ?_, ?_⟩
  · intro v p hv h32 h255
    have h := castFromStringRow_cidr_mismatch (v4Chars v) p (.v4 v)
      (slash_not_mem_v4Chars v) (follyTryFromString_v4Chars v hv) h255
      (by simp only [bitCount]; omega)
    simpa [bitCount] using h
  · intro v p hv h32 h128
    exact castFromStringRow_velox_bound32 _ (toMapped v) p
      (slash_not_mem_mapped_str v) (follyTryFromString_mapped v hv)
      (isMapped128_toMapped v (by omega)) h32 h128
  · intro v p hv h128 h255
    have h := castFromStringRow_cidr_mismatch _ p (.v6 (toMapped v))
      (slash_not_mem_mapped_str v) (follyTryFromString_mapped v hv) h255
      (by simp only [bitCount]; omega)
    simpa [bitCount] using h
  · intro ip p hip hm h128 h255
    have h := castFromStringRow_cidr_mismatch _ p (.v6 ip)
      (slash_not_mem_format6 ip) (follyTryFromString_format6 ip hip hm) h255
      (by simp only [bitCount]; omega)
    simpa [bitCount] using h

theorem c6_prefix_bound_corrected_witness :
    v4Chars 167772161 ++ '/' :: decChars 33 = "10.0.0.1/33".data ∧
    castFromStringRow false (v4Chars 167772161 ++ '/' :: decChars 33)
      = .error (cidrBoundMsg (decChars 33) 32) :=
  ⟨by norm_num [v4Chars, decChars, baseChars, digitChar],
   c6_prefix_bound_corrected.1 167772161 33 (by norm_num) (by norm_num)
     (by norm_num)⟩

/-- Claim C6 counterexample: the IPv4-mapped literal
"::ffff:10.0.0.1" with prefix 200 is recognized as IPv4-mapped, yet the
error cites bound 128, not the 32 the claim requires for an address
recognized as IPv4. -/
theorem c6_mapped_over128_counterexample :
    castFromStringRow false ("::ffff:10.0.0.1/200".data)
      = .error (cidrBoundMsg ("200".data) 128) ∧
    isMapped128 (toMapped 167772161) = true ∧
    cidrBoundMsg ("200".data) 128 ≠ cidrBoundMsg ("200".data) 32 := by
  have hv4 : v4Chars 167772161 = "10.0.0.1".data := by
    norm_num [v4Chars, decChars, baseChars, digitChar]
  have hd200 : decChars 200 = "200".data := by
    norm_num [decChars, baseChars, digitChar]
  have hd128 : decChars 128 = "128".data := by
    norm_num [decChars, baseChars, digitChar]
  have hd32 : decChars 32 = "32".data := by
    norm_num [decChars, baseChars, digitChar]
  have hs : ("::ffff:10.0.0.1/200".data : List Char)
      = ("::ffff:".data ++ v4Chars 167772161) ++ '/' :: decChars 200 := by
    rw [hv4, hd200]
    rfl
  have hmain := castFromStringRow_cidr_mismatch
    ("::ffff:".data ++ v4Chars 167772161) 200 (.v6 (toMapped 167772161))
    (slash_not_mem_mapped_str 167772161)
    (follyTryFromString_mapped 167772161 (by norm_num))
    (by norm_num) (by simp only [bitCount]; norm_num)
  refine ⟨?_, by decide, ?_⟩
  · rw [hs, hmain, hd200]
    rfl
  · intro h
    unfold cidrBoundMsg at h
    rw [hd128, hd32] at h
    exact absurd h (by decide)

/-- Claim C7: the row-level parse errors — no '/' separator yields the
"expected IP/PREFIX format" error, an invalid address portion quotes the
left split substring exactly, an invalid mask portion quotes the right
split substring exactly — and the batch records an outcome for every
active row in order, so no row error aborts the remaining rows. -/
theorem c7_row_errors :
    (∀ s, '/' ∉ s →
      castFromStringRow false s = .error (expectedFormatMsg s)) ∧
    (∀ a bs, '/' ∉ a → '/' ∉ bs → follyTryFromString a = none →
      castFromStringRow false (a ++ '/' :: bs) = .error (invalidIpMsg a)) ∧
    (∀ a bs sn, '/' ∉ a → '/' ∉ bs → follyTryFromString a = some sn →
      parseUInt8 bs = none →
      castFromStringRow false (a ++ '/' :: bs)
        = .error (invalidMaskMsg bs)) ∧
    (∀ skip inputs rows, (castFromStringBatch skip inputs rows).errs
        = rows.filterMap (fun row =>
            match castFromStringRow skip (inputs.getD row []) with
            | .error m => some (row, m)
            | .ok _ => none)) :=
  ⟨castFromStringRow_noSlash,
   castFromStringRow_invalidIp,
   fun a bs sn hna hnb hf hu =>
     castFromStringRow_invalidMask a bs sn hna hnb hf hu,
   castFromStringBatch_errs⟩

theorem c7_row_errors_witness :
    castFromStringRow false ("10.0.0.1".data)
        = .error (expectedFormatMsg ("10.0.0.1".data)) ∧
    castFromStringRow false ("bogus".data ++ '/' :: "8".data)
        = .error (invalidIpMsg ("bogus".data)) ∧
    castFromStringRow false ("10.0.0.1".data ++ '/' :: "abc".data)
        = .error (invalidMaskMsg ("abc".data)) :=
  ⟨c7_row_errors.1 _ (by decide),
   c7_row_errors.2.1 ("bogus".data) ("8".data) (by decide) (by decide)
     (by decide),
   c7_row_errors.2.2.1 ("10.0.0.1".data) ("abc".data)
     (FollyIP.v4 167772161) (by decide) (by decide) (by decide) (by decide)⟩

/-- Claim C8: registry identity is (name, ordered argument types) —
return type excluded — so a second registration with the identical
signature overwrites (one entry, resolving to the second implementation)
while a different argument list coexists as an independent overload. -/
theorem c8_registry_identity (r : List (FnSig × FnImpl)) (s s' : FnSig)
    (f1 f2 f' : FnImpl) (hne : s' ≠ s) (h0 : countSig r s = 0) :
    resolveFn (registerFn (registerFn r s f1) s f2) s = some f2 ∧
    countSig (registerFn (registerFn r s f1) s f2) s = 1 ∧
    resolveFn (registerFn (registerFn r s f1) s' f') s = some f1 ∧
    resolveFn (registerFn (registerFn r s f1) s' f') s' = some f' ∧
    countSig (registerFn (registerFn r s f1) s' f') s = 1 := by
  refine ⟨resolveFn_registerFn_self _ _ _, ?_, ?_,
    resolveFn_registerFn_self _ _ _, ?_⟩
  · rw [countSig_registerFn_self, countSig_registerFn_self, h0]
    decide
  · rw [resolveFn_registerFn_ne _ _ _ _ hne]
    exact resolveFn_registerFn_self _ _ _
  · rw [countSig_registerFn_ne _ _ _ _ hne, countSig_registerFn_self, h0]
    decide

theorem c8_registry_identity_witness :
    resolveFn (registerFn (registerFn []
        ⟨"f", ["int"]⟩ ⟨"bool", 1⟩) ⟨"f", ["int"]⟩ ⟨"int", 2⟩)
      ⟨"f", ["int"]⟩ = some ⟨"int", 2⟩ ∧
    countSig (registerFn (registerFn []
        ⟨"f", ["int"]⟩ ⟨"bool", 1⟩) ⟨"f", ["int"]⟩ ⟨"int", 2⟩)
      ⟨"f", ["int"]⟩ = 1 :=
  ⟨(c8_registry_identity [] ⟨"f", ["int"]⟩ ⟨"f", ["int", "int"]⟩
      ⟨"bool", 1⟩ ⟨"int", 2⟩ ⟨"int", 3⟩ (by decide) (by decide)).1,
   (c8_registry_identity [] ⟨"f", ["int"]⟩ ⟨"f", ["int", "int"]⟩
      ⟨"bool", 1⟩ ⟨"int", 2⟩ ⟨"int", 3⟩ (by decide) (by decide)).2.1⟩

/-- Claim C9: a conversion pair with no implemented code path (castTo
from a non-VARCHAR source, castFrom to a non-VARCHAR target) fails the
whole call up front with the VELOX_NYI setup error, before any row is
processed; the VARCHAR paths return the per-row batch outcome and never
fail the call. -/
theorem c9_nyi_dispatch (k k2 : TypeKind) (skip : Bool)
    (inputs : List (List Char)) (inputs2 : List (Nat × Nat))
    (rows rows2 : List Nat) (hk : k ≠ .VARCHAR) (hk2 : k2 ≠ .VARCHAR) :
    castTo k skip inputs rows
        = .error ("Cast to IPPrefix not yet supported".data) ∧
    castFrom k2 inputs2 rows2
        = .error ("Cast from IPPrefix not yet supported".data) ∧
    castTo .VARCHAR skip inputs rows
        = .ok (castFromStringBatch skip inputs rows) ∧
    castFrom .VARCHAR inputs2 rows2
        = .ok (castToStringBatch inputs2 rows2) := by
  refine ⟨?_, ?_, rfl, rfl⟩
  · unfold castTo
    rw [if_neg hk]
  · unfold castFrom
    rw [if_neg hk2]

theorem c9_nyi_dispatch_witness :
    castTo .HUGEINT false [] []
        = .error ("Cast to IPPrefix not yet supported".data) ∧
    castFrom .ROW [] []
        = .error ("Cast from IPPrefix not yet supported".data) :=
  ⟨(c9_nyi_dispatch .HUGEINT .ROW false [] [] [] [] (by decide)
      (by decide)).1,
   (c9_nyi_dispatch .HUGEINT .ROW false [] [] [] [] (by decide)
      (by decide)).2.1⟩

/-- Claim C10: ip_prefix truncates its int64 prefixBits argument modulo
256 to an unsigned byte and applies that value with no bound check of
its own — the result's stored prefix is exactly prefixBits mod 256, and
any failure is folly's mask exception, never the cast's
prefix-exceeds-bound row error. -/
theorem c10_prefixBits_mod256 (ip : Nat) (pb : Int) (k : Nat) :
    ipPrefixFn ip (pb + 256 * k) = ipPrefixFn ip pb ∧
    (∀ v q, ipPrefixFn ip pb = .ok (v, q) → (q : Int) = pb % 256) ∧
    (∀ m, ipPrefixFn ip pb = .error m → ∀ v b, m ≠ cidrBoundMsg v b) := by
  have hmod : (pb + 256 * (k : Int)) % 256 = pb % 256 := by
    omega
  refine ⟨?_, ?_, ?_⟩
  · unfold ipPrefixFn
    rw [hmod]
  · intro v q h
    have hq : q = (pb % 256).toNat := by
      unfold ipPrefixFn at h
      simp only [] at h
      split at h
      · split at h
        · exact absurd h (by simp)
        · simp only [Except.ok.injEq, Prod.mk.injEq] at h
          exact h.2.symm
      · split at h
        · exact absurd h (by simp)
        · simp only [Except.ok.injEq, Prod.mk.injEq] at h
          exact h.2.symm
    rw [hq]
    exact Int.toNat_of_nonneg (Int.emod_nonneg pb (by norm_num))
  · intro m h v b
    unfold ipPrefixFn at h
    simp only [] at h
    split at h
    · split at h
      · simp only [Except.error.injEq] at h
        rw [← h]
        exact follyMaskErrMsg_ne_cidrBoundMsg _ _ _ _
      · exact absurd h (by simp)
    · split at h
      · simp only [Except.error.injEq] at h
        rw [← h]
        exact follyMaskErrMsg_ne_cidrBoundMsg _ _ _ _
      · exact absurd h (by simp)

theorem c10_prefixBits_mod256_witness :
    ipPrefixFn 0 (300 + 256 * (1 : Nat)) = ipPrefixFn 0 300 ∧
    ((44 : Nat) : Int) = 300 % 256 :=
  ⟨(c10_prefixBits_mod256 0 300 1).1,
   (c10_prefixBits_mod256 0 300 1).2.1 0 44 (by decide)⟩

end VeloxIP
